import Mathlib

/-
Verification of the Connect-Four decision engine (state model, heuristic
evaluator, minimax and alpha-beta search) against its natural-language
specification.

The Python sources are shallowly embedded as executable Lean definitions:

* `src/connect4/game.py`   → `MoveResult`, `ConnectFour`, `actions`,
  `is_full`, `drop_disc`, `undo_disc`, `winner`, `terminal`.
  The mutable in-place updates of the Python class become explicit state
  passing: `drop_disc`/`undo_disc` return the successor state, and Python
  exceptions (`ValueError`, `RuntimeError`) become `Except.error`.  Both
  raising methods perform all their checks before any mutation, so an
  `Except`-returning embedding that yields no state on error is faithful.
* `src/connect4/evaluation.py` → `WIN_SCORE`, `score_window`, `evaluate`.
* `src/connect4/search.py` → `mmNode`/`minimax_decision` and
  `abNode`/`alphabeta_decision`.  The recursion of `max_value`/`min_value`
  is on the depth counter `d`, bounded by `depth_limit`; the embedding adds
  a structural `fuel` argument and keeps the source's own `d ≥ depth_limit`
  test, calling with enough fuel that the fuel-exhaustion branch is
  unreachable (`depth_limit ≤ d + fuel` is an invariant of every call).
  `max_value` and `min_value` are textually identical up to the comparison
  direction and which bound (alpha or beta) is tightened, so the per-move
  loops are embedded once, parameterised by that comparison (`better`) and
  bound update (`upd`); `mmNode`/`abNode` instantiate them exactly as the
  two Python functions do.  The `SearchMetrics.nodes_expanded` counter is
  threaded as an explicit `Nat` result (one per entry into
  `max_value`/`min_value`, exactly as the Python counter is incremented);
  wall-clock time and `max_depth_reached` are not modelled, and the tracer
  is modelled by the one datum the claims depend on: its `trace_depth`
  (an `Option Nat`, `none` = no tracer) and the number of PRUNED
  placeholder nodes recorded.  Tracer bookkeeping in `minimax_decision`
  has no effect on the returned move, value, state or node count, so the
  minimax embedding omits it.

Board coordinates follow the source: `board[row][col]`, row 0 is the top.
Players are `+1` / `-1`, empty cells are `0`.
-/

namespace C4

structure MoveResult where
  row : Nat
  col : Nat
  player : Int
deriving Repr, DecidableEq

structure ConnectFour where
  rows : Nat
  cols : Nat
  connect : Nat
  board : List (List Int)
  current_player : Int
  last_move : Option MoveResult
deriving Repr, DecidableEq

/-- Read `board[r][c]`; out-of-range reads default to 0 (never exercised by
in-range callers). -/
def getCell (b : List (List Int)) (r c : Nat) : Int :=
  (b.getD r []).getD c 0

/-- Write `board[r][c] = v`. -/
def setCell (b : List (List Int)) (r c : Nat) (v : Int) : List (List Int) :=
  b.set r ((b.getD r []).set c v)

/-- `ConnectFour.actions`: all columns whose top cell is empty, ascending. -/
def actions (g : ConnectFour) : List Nat :=
  (List.range g.cols).filter (fun c => decide (getCell g.board 0 c = 0))

/-- `ConnectFour.is_full`: the whole top row is occupied. -/
def is_full (g : ConnectFour) : Bool :=
  (List.range g.cols).all (fun c => decide (getCell g.board 0 c ≠ 0))

/-- The scan `for r in range(rows-1, -1, -1)` of `drop_disc`: the first
(i.e. lowest) row below `n` whose cell in column `col` is empty. -/
def findRowAux (g : ConnectFour) (col : Nat) : Nat → Option Nat
  | 0 => none
  | n + 1 => if getCell g.board n col = 0 then some n else findRowAux g col n

/-- `ConnectFour.drop_disc`.  The Python method checks the column range and
the top cell, then scans downward for the lowest empty cell, places the
disc, records the move as `last_move`, and flips `current_player` only when
the mover matches it; all checks precede every mutation, so each
`Except.error` corresponds to an exception raised before any state change.
The column is an `Int` because the range check rejects negative input. -/
def drop_disc (g : ConnectFour) (col : Int) (player : Int) :
    Except String (MoveResult × ConnectFour) :=
  if col < 0 ∨ (g.cols : Int) ≤ col then .error "Column out of bounds."
  else if getCell g.board 0 col.toNat ≠ 0 then .error "Column is full."
  else
    match findRowAux g col.toNat g.rows with
    | none => .error "Failed to drop disc."
    | some r =>
      let mv : MoveResult := ⟨r, col.toNat, player⟩
      .ok (mv,
        { g with
          board := setCell g.board r col.toNat player
          last_move := some mv
          current_player :=
            if player = g.current_player then -g.current_player
            else g.current_player })

/-- `ConnectFour.undo_disc`: checked against the recorded move, then clears
the cell, clears `last_move`, and hands the turn back to the mover. -/
def undo_disc (g : ConnectFour) (mv : MoveResult) : Except String ConnectFour :=
  if getCell g.board mv.row mv.col ≠ mv.player then
    .error "Undo mismatch: board cell does not match the move."
  else
    .ok { g with
          board := setCell g.board mv.row mv.col 0
          last_move := none
          current_player := mv.player }

/-- The `while` loop of `ConnectFour._count_dir`: consecutive discs of `p`
from `(rr, cc)` along `(dr, dc)`.  The Python loop terminates because each
step moves one row or one column monotonically, so `g.rows + g.cols` steps
of fuel always suffice. -/
def countDirGo (g : ConnectFour) (p dr dc : Int) : Nat → Int → Int → Nat
  | 0, _, _ => 0
  | fuel + 1, rr, cc =>
    if 0 ≤ rr ∧ rr < (g.rows : Int) ∧ 0 ≤ cc ∧ cc < (g.cols : Int) ∧
        getCell g.board rr.toNat cc.toNat = p then
      countDirGo g p dr dc fuel (rr + dr) (cc + dc) + 1
    else 0

/-- `ConnectFour._count_dir`. -/
def count_dir (g : ConnectFour) (r c : Nat) (p dr dc : Int) : Nat :=
  countDirGo g p dr dc (g.rows + g.cols) ((r : Int) + dr) ((c : Int) + dc)

/-- `ConnectFour._is_winning_move`: some of the four directions carries a
run of length ≥ `connect` through `(r, c)`. -/
def is_winning_move (g : ConnectFour) (r c : Nat) (p : Int) : Bool :=
  [((0 : Int), (1 : Int)), (1, 0), (1, 1), (-1, 1)].any (fun d =>
    decide (g.connect ≤ 1 + count_dir g r c p d.1 d.2 + count_dir g r c p (-d.1) (-d.2)))

/-- `ConnectFour.winner`: decided from `last_move` alone. -/
def winner (g : ConnectFour) : Int :=
  match g.last_move with
  | none => 0
  | some mv => if is_winning_move g mv.row mv.col mv.player then mv.player else 0

/-- `ConnectFour.terminal`. -/
def terminal (g : ConnectFour) : Bool :=
  decide (winner g ≠ 0) || is_full g

/-- Well-formedness guaranteed by the `ConnectFour.__init__` constructor:
the board is `rows × cols` and the configuration checks passed. -/
def WFB (g : ConnectFour) : Prop :=
  g.board.length = g.rows ∧ (∀ row ∈ g.board, row.length = g.cols) ∧
    0 < g.rows ∧ 0 < g.cols ∧ 3 ≤ g.connect

instance (g : ConnectFour) : Decidable (WFB g) := by
  unfold WFB; infer_instance

/-- `evaluation.WIN_SCORE = 10**9`. -/
def WIN_SCORE : Int := 1000000000

/-- `evaluation.evaluate.score_window`. -/
def score_window (player : Int) (w : List Int) : Int :=
  let p_count := w.count player
  let o_count := w.count (-player)
  let e_count := w.count 0
  if p_count > 0 ∧ o_count > 0 then 0
  else if p_count = 4 then 100000
  else if p_count = 3 ∧ e_count = 1 then 200
  else if p_count = 2 ∧ e_count = 2 then 30
  else if o_count = 4 then -100000
  else if o_count = 3 ∧ e_count = 1 then -220
  else if o_count = 2 ∧ e_count = 2 then -35
  else 0

/-- `evaluation.evaluate`: terminal/full short-circuits, then the centre
column delta weighted by 6 plus the four sliding-window sums.  All four
window loops of the source use the fixed length 4 (`range(4)`, `cols - 3`,
`rows - 3`, `range(3, rows)`); the up-right diagonal row index
`r ∈ range(3, rows)` is written `k + 3` with `k < rows - 3`. -/
def evaluate (g : ConnectFour) (player : Int) : Int :=
  let w := winner g
  if w = player then WIN_SCORE
  else if w = -player then -WIN_SCORE
  else if is_full g then 0
  else
    let center_col := g.cols / 2
    let center_delta : Int :=
      ((List.range g.rows).map (fun r =>
        if getCell g.board r center_col = player then (1 : Int)
        else if getCell g.board r center_col = -player then -1 else 0)).sum
    let horiz : Int :=
      ((List.range g.rows).map (fun r =>
        ((List.range (g.cols - 3)).map (fun c =>
          score_window player ((List.range 4).map (fun i =>
            getCell g.board r (c + i))))).sum)).sum
    let vert : Int :=
      ((List.range g.cols).map (fun c =>
        ((List.range (g.rows - 3)).map (fun r =>
          score_window player ((List.range 4).map (fun i =>
            getCell g.board (r + i) c)))).sum)).sum
    let diagDR : Int :=
      ((List.range (g.rows - 3)).map (fun r =>
        ((List.range (g.cols - 3)).map (fun c =>
          score_window player ((List.range 4).map (fun i =>
            getCell g.board (r + i) (c + i))))).sum)).sum
    let diagUR : Int :=
      ((List.range (g.rows - 3)).map (fun k =>
        ((List.range (g.cols - 3)).map (fun c =>
          score_window player ((List.range 4).map (fun i =>
            getCell g.board (k + 3 - i) (c + i))))).sum)).sum
    6 * center_delta + horiz + vert + diagDR + diagUR

/-- The sentinel `10**18` that `search.py` uses as its pseudo-infinity
(`INF` in `alphabeta_decision`, and the initial accumulators `-10**18` /
`10**18` of every maximising/minimising loop). -/
def bigE : Int := 1000000000000000000

/-- The nested `terminal_value()` helper shared by both search functions. -/
def terminalValue (g : ConnectFour) (ai : Int) : Int :=
  let w := winner g
  if w = ai then WIN_SCORE
  else if w = -ai then -WIN_SCORE
  else 0

/-- The move loop of `minimax_decision.max_value` / `.min_value`: for each
action, drop (with the default mover `current_player`), recurse via `step`,
undo, and keep the better value (`better val v` is `val > v` in
`max_value` and `val < v` in `min_value`; both loops are otherwise
identical).  Returns the final value, the threaded state, and the number of
nodes expanded by the recursive calls. -/
def searchLoop (better : Int → Int → Bool)
    (step : ConnectFour → Except String (Int × ConnectFour × Nat)) :
    ConnectFour → List Nat → Int → Except String (Int × ConnectFour × Nat)
  | g, [], v => .ok (v, g, 0)
  | g, a :: rest, v =>
    match drop_disc g a g.current_player with
    | .error e => .error e
    | .ok (mv, g1) =>
      match step g1 with
      | .error e => .error e
      | .ok (val, g2, n1) =>
        match undo_disc g2 mv with
        | .error e => .error e
        | .ok g3 =>
          match searchLoop better step g3 rest (if better val v then val else v) with
          | .error e => .error e
          | .ok (vr, g4, n2) => .ok (vr, g4, n1 + n2)

/-- `minimax_decision.max_value` (`isMax = true`) and `.min_value`
(`isMax = false`), fused: terminal test first, then the `d >= depth_limit`
cutoff, then the move loop (starting from `-10**18` with `>` replacement
for max, `10**18` with `<` for min).  `fuel` is a structural recursion
measure only; every call keeps `dl ≤ d + fuel`, so the fuel-exhaustion
error is unreachable.  Result: `(value, state after the in-place
traversal, nodes expanded)`; the node count is incremented once per entry,
exactly like `metrics.nodes_expanded`. -/
def mmNode (ai : Int) (dl : Nat) : Nat → Bool → Nat → ConnectFour →
    Except String (Int × ConnectFour × Nat)
  | fuel, isMax, d, g =>
    if terminal g then .ok (terminalValue g ai, g, 1)
    else if dl ≤ d then .ok (evaluate g ai, g, 1)
    else
      match fuel with
      | 0 => .error "fuel exhausted"
      | fuel' + 1 =>
        if isMax then
          match searchLoop (fun val v => decide (v < val))
              (mmNode ai dl fuel' false (d + 1)) g (actions g) (-bigE) with
          | .error e => .error e
          | .ok (v, g', n) => .ok (v, g', n + 1)
        else
          match searchLoop (fun val v => decide (val < v))
              (mmNode ai dl fuel' true (d + 1)) g (actions g) bigE with
          | .error e => .error e
          | .ok (v, g', n) => .ok (v, g', n + 1)

/-- The root move loop of `minimax_decision`: like `searchLoop` but it also
records which action achieved the current best value (strict-improvement
replacement, so the first action attaining the best value is kept).
`best_move` starts as `None`; Python's final `int(best_move)` would raise
if it were still `None`, which the `Option` result models. -/
def rootLoop (better : Int → Int → Bool)
    (step : ConnectFour → Except String (Int × ConnectFour × Nat)) :
    ConnectFour → List Nat → Int → Option Nat →
      Except String (Option Nat × Int × ConnectFour × Nat)
  | g, [], bv, bm => .ok (bm, bv, g, 0)
  | g, a :: rest, bv, bm =>
    match drop_disc g a g.current_player with
    | .error e => .error e
    | .ok (mv, g1) =>
      match step g1 with
      | .error e => .error e
      | .ok (val, g2, n1) =>
        match undo_disc g2 mv with
        | .error e => .error e
        | .ok g3 =>
          let bv' := if better val bv then val else bv
          let bm' := if better val bv then some a else bm
          match rootLoop better step g3 rest bv' bm' with
          | .error e => .error e
          | .ok (rm, rv, g4, n2) => .ok (rm, rv, g4, n1 + n2)

/-- `search.minimax_decision`: if it is `ai_player`'s turn, maximise over
the legal moves with `min_value(1, ·)` below each; otherwise (the
"not expected in normal use" branch) minimise with `max_value(1, ·)`.
Result: `(best_move, best_val, state, nodes_expanded)`. -/
def minimax_decision (g : ConnectFour) (ai : Int) (dl : Nat) :
    Except String (Option Nat × Int × ConnectFour × Nat) :=
  if g.current_player = ai then
    rootLoop (fun val v => decide (v < val)) (mmNode ai dl dl false 1)
      g (actions g) (-bigE) none
  else
    rootLoop (fun val v => decide (val < v)) (mmNode ai dl dl true 1)
      g (actions g) bigE none

/-- The move loop of `alphabeta_decision.max_value` / `.min_value`:
as `searchLoop`, but threading `(alpha, beta)` into each child, tightening
one bound from the running value (`upd v alpha beta` is
`(max alpha v, beta)` in `max_value` and `(alpha, min beta v)` in
`min_value`), and breaking out as soon as `alpha >= beta`.  On such a
cutoff the remaining sibling actions are recorded as PRUNED placeholder
trace nodes when `rp` holds (tracer present and `d < trace_depth`); the
fourth result component counts those placeholders. -/
def abLoop (better : Int → Int → Bool) (upd : Int → Int → Int → Int × Int)
    (step : Int → Int → ConnectFour → Except String (Int × ConnectFour × Nat × Nat))
    (rp : Bool) :
    ConnectFour → List Nat → Int → Int → Int →
      Except String (Int × ConnectFour × Nat × Nat)
  | g, [], v, _, _ => .ok (v, g, 0, 0)
  | g, a :: rest, v, alpha, beta =>
    match drop_disc g a g.current_player with
    | .error e => .error e
    | .ok (mv, g1) =>
      match step alpha beta g1 with
      | .error e => .error e
      | .ok (val, g2, n1, p1) =>
        match undo_disc g2 mv with
        | .error e => .error e
        | .ok g3 =>
          let v' := if better val v then val else v
          let ab := upd v' alpha beta
          if ab.2 ≤ ab.1 then
            .ok (v', g3, n1, p1 + (if rp then rest.length else 0))
          else
            match abLoop better upd step rp g3 rest v' ab.1 ab.2 with
            | .error e => .error e
            | .ok (vr, g4, n2, p2) => .ok (vr, g4, n1 + n2, p1 + p2)

/-- Whether PRUNED placeholders are recorded at depth `d`: a tracer is
present and `d < trace_depth`.  At the root (`d = 0`) this is the
source's `tracer.trace_depth >= 1`. -/
def rpAt (td : Option Nat) (d : Nat) : Bool :=
  match td with
  | none => false
  | some t => decide (d < t)

/-- `alphabeta_decision.max_value` / `.min_value`, fused like `mmNode`.
`td` is the tracer's `trace_depth` (`none` when no tracer is passed);
placeholder recording at a node requires `d < trace_depth`.  Result:
`(value, state, nodes expanded, PRUNED placeholders recorded)`. -/
def abNode (ai : Int) (dl : Nat) (td : Option Nat) : Nat → Bool → Nat → Int → Int →
    ConnectFour → Except String (Int × ConnectFour × Nat × Nat)
  | fuel, isMax, d, alpha, beta, g =>
    if terminal g then .ok (terminalValue g ai, g, 1, 0)
    else if dl ≤ d then .ok (evaluate g ai, g, 1, 0)
    else
      match fuel with
      | 0 => .error "fuel exhausted"
      | fuel' + 1 =>
        if isMax then
          match abLoop (fun val v => decide (v < val))
              (fun v a b => (if a < v then v else a, b))
              (abNode ai dl td fuel' false (d + 1)) (rpAt td d)
              g (actions g) (-bigE) alpha beta with
          | .error e => .error e
          | .ok (v, g', n, p) => .ok (v, g', n + 1, p)
        else
          match abLoop (fun val v => decide (val < v))
              (fun v a b => (a, if v < b then v else b))
              (abNode ai dl td fuel' true (d + 1)) (rpAt td d)
              g (actions g) bigE alpha beta with
          | .error e => .error e
          | .ok (v, g', n, p) => .ok (v, g', n + 1, p)

/-- The root move loop of `alphabeta_decision`: tracks the best move, the
best value, and the tightening bound exactly as the Python root loop does
(update best on strict improvement, raise alpha / lower beta from the best
value, break and record placeholders when `alpha >= beta`). -/
def abRootLoop (better : Int → Int → Bool) (upd : Int → Int → Int → Int × Int)
    (step : Int → Int → ConnectFour → Except String (Int × ConnectFour × Nat × Nat))
    (rp : Bool) :
    ConnectFour → List Nat → Int → Option Nat → Int → Int →
      Except String (Option Nat × Int × ConnectFour × Nat × Nat)
  | g, [], bv, bm, _, _ => .ok (bm, bv, g, 0, 0)
  | g, a :: rest, bv, bm, alpha, beta =>
    match drop_disc g a g.current_player with
    | .error e => .error e
    | .ok (mv, g1) =>
      match step alpha beta g1 with
      | .error e => .error e
      | .ok (val, g2, n1, p1) =>
        match undo_disc g2 mv with
        | .error e => .error e
        | .ok g3 =>
          let bv' := if better val bv then val else bv
          let bm' := if better val bv then some a else bm
          let ab := upd bv' alpha beta
          if ab.2 ≤ ab.1 then
            .ok (bm', bv', g3, n1, p1 + (if rp then rest.length else 0))
          else
            match abRootLoop better upd step rp g3 rest bv' bm' ab.1 ab.2 with
            | .error e => .error e
            | .ok (rm, rv, g4, n2, p2) => .ok (rm, rv, g4, n1 + n2, p1 + p2)

/-- `search.alphabeta_decision`, with the root window `(-INF, INF)`.
Root placeholder recording requires `tracer.trace_depth >= 1`.  Result:
`(best_move, best_val, state, nodes_expanded, placeholders recorded)`. -/
def alphabeta_decision (g : ConnectFour) (ai : Int) (dl : Nat) (td : Option Nat) :
    Except String (Option Nat × Int × ConnectFour × Nat × Nat) :=
  if g.current_player = ai then
    abRootLoop (fun val v => decide (v < val))
      (fun v a b => (if a < v then v else a, b))
      (abNode ai dl td dl false 1) (rpAt td 0) g (actions g) (-bigE) none (-bigE) bigE
  else
    abRootLoop (fun val v => decide (val < v))
      (fun v a b => (a, if v < b then v else b))
      (abNode ai dl td dl true 1) (rpAt td 0) g (actions g) bigE none (-bigE) bigE

/-
Pure companions of the search functions.  The monadic functions above
thread the mutated/restored state through the traversal exactly as the
Python does; the companions below recompute each child position locally
(`childState`) and return only the observables (value, node count,
placeholder count).  The bridge lemmas prove that on well-formed states
the monadic functions succeed and agree with the companions, so all
value/metric reasoning can be done purely.
-/

/-- The position reached from `g` by dropping the current player's disc in
column `a` (the state the search recurses into); `g` itself if the drop
fails (never the case for a legal column). -/
def childState (g : ConnectFour) (a : Nat) : ConnectFour :=
  match drop_disc g a g.current_player with
  | .ok x => x.2
  | .error _ => g

/-- Pure companion of `searchLoop`. -/
def searchLoopP (better : Int → Int → Bool) (step : ConnectFour → Int × Nat) :
    ConnectFour → List Nat → Int → Int × Nat
  | _, [], v => (v, 0)
  | g, a :: rest, v =>
    let r1 := step (childState g a)
    let r2 := searchLoopP better step g rest (if better r1.1 v then r1.1 else v)
    (r2.1, r1.2 + r2.2)

/-- Pure companion of `mmNode`. -/
def mmPNode (ai : Int) (dl : Nat) : Nat → Bool → Nat → ConnectFour → Int × Nat
  | fuel, isMax, d, g =>
    if terminal g then (terminalValue g ai, 1)
    else if dl ≤ d then (evaluate g ai, 1)
    else
      match fuel with
      | 0 => (0, 0)
      | fuel' + 1 =>
        if isMax then
          let r := searchLoopP (fun val v => decide (v < val))
            (mmPNode ai dl fuel' false (d + 1)) g (actions g) (-bigE)
          (r.1, r.2 + 1)
        else
          let r := searchLoopP (fun val v => decide (val < v))
            (mmPNode ai dl fuel' true (d + 1)) g (actions g) bigE
          (r.1, r.2 + 1)

/-- Pure companion of `rootLoop`. -/
def rootLoopP (better : Int → Int → Bool) (step : ConnectFour → Int × Nat) :
    ConnectFour → List Nat → Int → Option Nat → Option Nat × Int × Nat
  | _, [], bv, bm => (bm, bv, 0)
  | g, a :: rest, bv, bm =>
    let r1 := step (childState g a)
    let bv' := if better r1.1 bv then r1.1 else bv
    let bm' := if better r1.1 bv then some a else bm
    let r2 := rootLoopP better step g rest bv' bm'
    (r2.1, r2.2.1, r1.2 + r2.2.2)

/-- Pure companion of `minimax_decision`: `(best_move, best_val, nodes)`. -/
def mmPure (g : ConnectFour) (ai : Int) (dl : Nat) : Option Nat × Int × Nat :=
  if g.current_player = ai then
    rootLoopP (fun val v => decide (v < val)) (fun h => mmPNode ai dl dl false 1 h)
      g (actions g) (-bigE) none
  else
    rootLoopP (fun val v => decide (val < v)) (fun h => mmPNode ai dl dl true 1 h)
      g (actions g) bigE none

/-- Pure companion of `abLoop`. -/
def abLoopP (better : Int → Int → Bool) (upd : Int → Int → Int → Int × Int)
    (step : Int → Int → ConnectFour → Int × Nat × Nat) (rp : Bool) :
    ConnectFour → List Nat → Int → Int → Int → Int × Nat × Nat
  | _, [], v, _, _ => (v, 0, 0)
  | g, a :: rest, v, alpha, beta =>
    let r1 := step alpha beta (childState g a)
    let v' := if better r1.1 v then r1.1 else v
    let ab := upd v' alpha beta
    if ab.2 ≤ ab.1 then (v', r1.2.1, r1.2.2 + (if rp then rest.length else 0))
    else
      let r2 := abLoopP better upd step rp g rest v' ab.1 ab.2
      (r2.1, r1.2.1 + r2.2.1, r1.2.2 + r2.2.2)

/-- Pure companion of `abNode`. -/
def abPNode (ai : Int) (dl : Nat) (td : Option Nat) :
    Nat → Bool → Nat → Int → Int → ConnectFour → Int × Nat × Nat
  | fuel, isMax, d, alpha, beta, g =>
    if terminal g then (terminalValue g ai, 1, 0)
    else if dl ≤ d then (evaluate g ai, 1, 0)
    else
      match fuel with
      | 0 => (0, 0, 0)
      | fuel' + 1 =>
        if isMax then
          let r := abLoopP (fun val v => decide (v < val))
            (fun v a b => (if a < v then v else a, b))
            (abPNode ai dl td fuel' false (d + 1)) (rpAt td d) g (actions g) (-bigE) alpha beta
          (r.1, r.2.1 + 1, r.2.2)
        else
          let r := abLoopP (fun val v => decide (val < v))
            (fun v a b => (a, if v < b then v else b))
            (abPNode ai dl td fuel' true (d + 1)) (rpAt td d) g (actions g) bigE alpha beta
          (r.1, r.2.1 + 1, r.2.2)

/-- Pure companion of `abRootLoop`. -/
def abRootLoopP (better : Int → Int → Bool) (upd : Int → Int → Int → Int × Int)
    (step : Int → Int → ConnectFour → Int × Nat × Nat) (rp : Bool) :
    ConnectFour → List Nat → Int → Option Nat → Int → Int →
      Option Nat × Int × Nat × Nat
  | _, [], bv, bm, _, _ => (bm, bv, 0, 0)
  | g, a :: rest, bv, bm, alpha, beta =>
    let r1 := step alpha beta (childState g a)
    let bv' := if better r1.1 bv then r1.1 else bv
    let bm' := if better r1.1 bv then some a else bm
    let ab := upd bv' alpha beta
    if ab.2 ≤ ab.1 then (bm', bv', r1.2.1, r1.2.2 + (if rp then rest.length else 0))
    else
      let r2 := abRootLoopP better upd step rp g rest bv' bm' ab.1 ab.2
      (r2.1, r2.2.1, r1.2.1 + r2.2.2.1, r1.2.2 + r2.2.2.2)

/-- Pure companion of `alphabeta_decision`:
`(best_move, best_val, nodes, placeholders)`. -/
def abPure (g : ConnectFour) (ai : Int) (dl : Nat) (td : Option Nat) :
    Option Nat × Int × Nat × Nat :=
  if g.current_player = ai then
    abRootLoopP (fun val v => decide (v < val))
      (fun v a b => (if a < v then v else a, b))
      (fun x y h => abPNode ai dl td dl false 1 x y h) (rpAt td 0) g (actions g)
      (-bigE) none (-bigE) bigE
  else
    abRootLoopP (fun val v => decide (val < v))
      (fun v a b => (a, if v < b then v else b))
      (fun x y h => abPNode ai dl td dl true 1 x y h) (rpAt td 0) g (actions g)
      bigE none (-bigE) bigE

/-
Claim-side (spec-side) definitions, used to compare the source's evaluator
against the specification's wording.
-/

/-- Claim-side window table (C4): 0 for a window mixing both players,
100000 / 200 (three with one empty) / 30 (two with two empties) for the
perspective player, and the mirrored −100000 / −220 / −35 for the
opponent. -/
def specWindowScore (player : Int) (w : List Int) : Int :=
  if w.count player > 0 ∧ w.count (-player) > 0 then 0
  else if w.count player = 4 then 100000
  else if w.count player = 3 ∧ w.count 0 = 1 then 200
  else if w.count player = 2 ∧ w.count 0 = 2 then 30
  else if w.count (-player) = 4 then -100000
  else if w.count (-player) = 3 ∧ w.count 0 = 1 then -220
  else if w.count (-player) = 2 ∧ w.count 0 = 2 then -35
  else 0

/-- Claim-side centre-column term (C4): 6 per perspective-player disc in
the middle column, −6 per opponent disc there. -/
def specCenterScore (g : ConnectFour) (player : Int) : Int :=
  ((List.range g.rows).map (fun r =>
    if getCell g.board r (g.cols / 2) = player then (6 : Int)
    else if getCell g.board r (g.cols / 2) = -player then -6 else 0)).sum

/-- Claim-side statement of the heuristic total (C4): the centre-column
term plus `specWindowScore` summed over every 4-cell window in the four
directions. -/
def evalSpec (g : ConnectFour) (player : Int) : Int :=
  specCenterScore g player +
    ((List.range g.rows).map (fun r =>
      ((List.range (g.cols - 3)).map (fun c =>
        specWindowScore player ((List.range 4).map (fun i =>
          getCell g.board r (c + i))))).sum)).sum +
    ((List.range g.cols).map (fun c =>
      ((List.range (g.rows - 3)).map (fun r =>
        specWindowScore player ((List.range 4).map (fun i =>
          getCell g.board (r + i) c)))).sum)).sum +
    ((List.range (g.rows - 3)).map (fun r =>
      ((List.range (g.cols - 3)).map (fun c =>
        specWindowScore player ((List.range 4).map (fun i =>
          getCell g.board (r + i) (c + i))))).sum)).sum +
    ((List.range (g.rows - 3)).map (fun k =>
      ((List.range (g.cols - 3)).map (fun c =>
        specWindowScore player ((List.range 4).map (fun i =>
          getCell g.board (k + 3 - i) (c + i))))).sum)).sum

/-- Modelled from the spec (C5): the evaluator as the specification words
it, with the sliding-window length equal to the win-length constant
`connect` instead of the fixed 4 — window starts range over
`cols - (connect - 1)` (resp. `rows - (connect - 1)`) and each window has
`connect` cells; the weighting table and everything else are unchanged. -/
def evaluateConnectLen (g : ConnectFour) (player : Int) : Int :=
  let w := winner g
  if w = player then WIN_SCORE
  else if w = -player then -WIN_SCORE
  else if is_full g then 0
  else
    let L := g.connect
    let center_col := g.cols / 2
    let center_delta : Int :=
      ((List.range g.rows).map (fun r =>
        if getCell g.board r center_col = player then (1 : Int)
        else if getCell g.board r center_col = -player then -1 else 0)).sum
    let horiz : Int :=
      ((List.range g.rows).map (fun r =>
        ((List.range (g.cols - (L - 1))).map (fun c =>
          score_window player ((List.range L).map (fun i =>
            getCell g.board r (c + i))))).sum)).sum
    let vert : Int :=
      ((List.range g.cols).map (fun c =>
        ((List.range (g.rows - (L - 1))).map (fun r =>
          score_window player ((List.range L).map (fun i =>
            getCell g.board (r + i) c)))).sum)).sum
    let diagDR : Int :=
      ((List.range (g.rows - (L - 1))).map (fun r =>
        ((List.range (g.cols - (L - 1))).map (fun c =>
          score_window player ((List.range L).map (fun i =>
            getCell g.board (r + i) (c + i))))).sum)).sum
    let diagUR : Int :=
      ((List.range (g.rows - (L - 1))).map (fun k =>
        ((List.range (g.cols - (L - 1))).map (fun c =>
          score_window player ((List.range L).map (fun i =>
            getCell g.board (k + (L - 1) - i) (c + i))))).sum)).sum
    6 * center_delta + horiz + vert + diagDR + diagUR

/-
Basic list-access lemmas (proved from first principles to keep the
development self-contained).
-/

theorem list_getD_set_self {α : Type} (d v : α) :
    ∀ (l : List α) (n : Nat), n < l.length → (l.set n v).getD n d = v := by
  intro l
  induction l with
  | nil => intro n h; simp at h
  | cons x xs ih =>
    intro n h
    cases n with
    | zero => simp [List.set, List.getD]
    | succ m =>
      simp only [List.set, List.getD_cons_succ]
      exact ih m (by simpa using h)

theorem list_getD_set_ne {α : Type} (d v : α) :
    ∀ (l : List α) (n m : Nat), n ≠ m → (l.set n v).getD m d = l.getD m d := by
  intro l
  induction l with
  | nil => intro n m _; simp [List.set]
  | cons x xs ih =>
    intro n m hnm
    cases n with
    | zero =>
      cases m with
      | zero => exact absurd rfl hnm
      | succ k => simp [List.set]
    | succ j =>
      cases m with
      | zero => simp [List.set]
      | succ k =>
        simp only [List.set, List.getD_cons_succ]
        exact ih j k (by omega)

theorem list_set_getD {α : Type} (d : α) :
    ∀ (l : List α) (n : Nat), n < l.length → l.set n (l.getD n d) = l := by
  intro l
  induction l with
  | nil => intro n h; simp at h
  | cons x xs ih =>
    intro n h
    cases n with
    | zero => simp [List.set, List.getD]
    | succ m =>
      simp only [List.getD_cons_succ, List.set]
      rw [ih m (by simpa using h)]

theorem list_set_set {α : Type} (v w : α) :
    ∀ (l : List α) (n : Nat), (l.set n v).set n w = l.set n w := by
  intro l
  induction l with
  | nil => intro n; simp [List.set]
  | cons x xs ih =>
    intro n
    cases n with
    | zero => simp [List.set]
    | succ m => simp [List.set, ih]

theorem list_mem_set {α : Type} (v : α) :
    ∀ (l : List α) (n : Nat) (x : α), x ∈ l.set n v → x ∈ l ∨ x = v := by
  intro l
  induction l with
  | nil => intro n x hx; simp [List.set] at hx
  | cons y ys ih =>
    intro n x hx
    cases n with
    | zero =>
      rcases (List.mem_cons).1 hx with h | h
      · exact Or.inr h
      · exact Or.inl (List.mem_cons_of_mem _ h)
    | succ m =>
      rcases (List.mem_cons).1 hx with h | h
      · exact Or.inl (h ▸ List.mem_cons_self _ _)
      · rcases ih m x h with h2 | h2
        · exact Or.inl (List.mem_cons_of_mem _ h2)
        · exact Or.inr h2

theorem list_getD_mem {α : Type} (d : α) :
    ∀ (l : List α) (n : Nat), n < l.length → l.getD n d ∈ l := by
  intro l
  induction l with
  | nil => intro n h; simp at h
  | cons x xs ih =>
    intro n h
    cases n with
    | zero => simp [List.getD]
    | succ m =>
      simp only [List.getD_cons_succ]
      exact List.mem_cons_of_mem _ (ih m (by simpa using h))

/-
Cell-level lemmas about `getCell` / `setCell`.
-/

theorem getCell_setCell_self (b : List (List Int)) (r c : Nat) (v : Int)
    (hr : r < b.length) (hc : c < (b.getD r []).length) :
    getCell (setCell b r c v) r c = v := by
  unfold getCell setCell
  rw [list_getD_set_self _ _ _ _ hr]
  exact list_getD_set_self _ _ _ _ hc

theorem setCell_length (b : List (List Int)) (r c : Nat) (v : Int) :
    (setCell b r c v).length = b.length := by
  unfold setCell; exact List.length_set b _ _

theorem setCell_setCell (b : List (List Int)) (r c : Nat) (v w : Int)
    (hr : r < b.length) :
    setCell (setCell b r c v) r c w = setCell b r c w := by
  unfold setCell
  rw [list_getD_set_self _ _ _ _ hr, list_set_set, list_set_set]

theorem setCell_cancel (b : List (List Int)) (r c : Nat) (v : Int)
    (hr : r < b.length) (hc : c < (b.getD r []).length)
    (h0 : getCell b r c = 0) :
    setCell (setCell b r c v) r c 0 = b := by
  rw [setCell_setCell b r c v 0 hr]
  unfold setCell
  unfold getCell at h0
  rw [← h0, list_set_getD _ _ _ hc, list_set_getD _ _ _ hr]

theorem setCell_row_lengths (b : List (List Int)) (r c : Nat) (v : Int) (k : Nat)
    (hr : r < b.length) (hall : ∀ row ∈ b, row.length = k) :
    ∀ row ∈ setCell b r c v, row.length = k := by
  intro row hrow
  rcases list_mem_set _ _ _ _ hrow with h | h
  · exact hall row h
  · subst h
    rw [List.length_set]
    exact hall _ (list_getD_mem _ _ _ hr)

/-
State-model lemmas: actions, fullness, terminality, drop and undo.
-/

theorem mem_actions (g : ConnectFour) (a : Nat) :
    a ∈ actions g ↔ a < g.cols ∧ getCell g.board 0 a = 0 := by
  unfold actions
  simp [List.mem_filter, List.mem_range]

theorem actions_nil_iff (g : ConnectFour) :
    actions g = [] ↔ is_full g = true := by
  unfold actions is_full
  rw [List.filter_eq_nil_iff, List.all_eq_true]
  constructor
  · intro h c hc
    have := h c hc
    simpa using this
  · intro h c hc
    have := h c hc
    simpa using this

theorem terminal_false_iff (g : ConnectFour) :
    terminal g = false ↔ winner g = 0 ∧ is_full g = false := by
  unfold terminal
  constructor
  · intro h
    rcases Bool.or_eq_false_iff.1 h with ⟨h1, h2⟩
    refine ⟨?_, h2⟩
    by_contra hw
    simp [hw] at h1
  · intro ⟨h1, h2⟩
    simp [h1, h2]

theorem findRowAux_some (g : ConnectFour) (col : Nat) :
    ∀ n r, findRowAux g col n = some r →
      r < n ∧ getCell g.board r col = 0 ∧
        ∀ j, r < j → j < n → getCell g.board j col ≠ 0 := by
  intro n
  induction n with
  | zero => intro r h; simp [findRowAux] at h
  | succ m ih =>
    intro r h
    unfold findRowAux at h
    by_cases h0 : getCell g.board m col = 0
    · simp [h0] at h
      subst h
      exact ⟨Nat.lt_succ_self m, h0, fun j hj1 hj2 => by omega⟩
    · simp [h0] at h
      obtain ⟨h1, h2, h3⟩ := ih r h
      refine ⟨Nat.lt_succ_of_lt h1, h2, ?_⟩
      intro j hj1 hj2
      rcases Nat.lt_succ_iff_lt_or_eq.1 hj2 with h4 | h4
      · exact h3 j hj1 h4
      · subst h4; exact h0

theorem findRowAux_isSome (g : ConnectFour) (col : Nat)
    (h0 : getCell g.board 0 col = 0) :
    ∀ n, 0 < n → ∃ r, findRowAux g col n = some r := by
  intro n
  induction n with
  | zero => intro h; omega
  | succ m ih =>
    intro _
    unfold findRowAux
    by_cases hm : getCell g.board m col = 0
    · exact ⟨m, by simp [hm]⟩
    · have hm0 : 0 < m := by
        rcases Nat.eq_zero_or_pos m with h | h
        · subst h; exact absurd h0 hm
        · exact h
      obtain ⟨r, hr⟩ := ih hm0
      exact ⟨r, by simp [hm, hr]⟩

theorem WFB_last (g : ConnectFour) (lm : Option MoveResult) :
    WFB { g with last_move := lm } ↔ WFB g := Iff.rfl

theorem actions_last (g : ConnectFour) (lm : Option MoveResult) :
    actions { g with last_move := lm } = actions g := rfl

theorem findRowAux_last (g : ConnectFour) (lm : Option MoveResult) (col : Nat) :
    ∀ n, findRowAux { g with last_move := lm } col n = findRowAux g col n := by
  intro n
  induction n with
  | zero => rfl
  | succ m ih =>
    unfold findRowAux
    rw [ih]

theorem drop_disc_ok (g : ConnectFour) (a : Nat) (hW : WFB g)
    (ha : a < g.cols) (h0 : getCell g.board 0 a = 0) :
    ∃ r, findRowAux g a g.rows = some r ∧ r < g.rows ∧ getCell g.board r a = 0 ∧
      drop_disc g (a : Int) g.current_player =
        .ok (⟨r, a, g.current_player⟩,
          { g with board := setCell g.board r a g.current_player
                   last_move := some ⟨r, a, g.current_player⟩
                   current_player := -g.current_player }) ∧
      childState g a =
        { g with board := setCell g.board r a g.current_player
                 last_move := some ⟨r, a, g.current_player⟩
                 current_player := -g.current_player } := by
  obtain ⟨r, hr⟩ := findRowAux_isSome g a h0 g.rows hW.2.2.1
  obtain ⟨hr1, hr2, _⟩ := findRowAux_some g a g.rows r hr
  refine ⟨r, hr, hr1, hr2, ?_⟩
  have hguard : ¬((a : Int) < 0 ∨ (g.cols : Int) ≤ (a : Int)) := by
    push_neg
    constructor
    · exact Int.natCast_nonneg a
    · exact_mod_cast ha
  have htoNat : ((a : Int)).toNat = a := Int.toNat_natCast a
  have hdrop : drop_disc g (a : Int) g.current_player =
      .ok (⟨r, a, g.current_player⟩,
        { g with board := setCell g.board r a g.current_player
                 last_move := some ⟨r, a, g.current_player⟩
                 current_player := -g.current_player }) := by
    unfold drop_disc
    rw [if_neg hguard, htoNat, if_neg (by simp [h0]), hr]
    simp
  refine ⟨hdrop, ?_⟩
  unfold childState
  rw [hdrop]

theorem childState_last (g : ConnectFour) (lm : Option MoveResult) (a : Nat)
    (hW : WFB g) (ha : a < g.cols) (h0 : getCell g.board 0 a = 0) :
    childState { g with last_move := lm } a = childState g a := by
  obtain ⟨r1, hf1, _, _, _, h1⟩ :=
    drop_disc_ok { g with last_move := lm } a ((WFB_last g lm).mpr hW) ha h0
  obtain ⟨r2, hf2, _, _, _, h2⟩ := drop_disc_ok g a hW ha h0
  rw [findRowAux_last] at hf1
  rw [hf2] at hf1
  have hr : r2 = r1 := by injection hf1
  subst hr
  rw [h1, h2]

theorem WFB_childState (g : ConnectFour) (a : Nat) (hW : WFB g)
    (ha : a < g.cols) (h0 : getCell g.board 0 a = 0) :
    WFB (childState g a) := by
  obtain ⟨r, _, hrlt, _, _, hcs⟩ := drop_disc_ok g a hW ha h0
  rw [hcs]
  obtain ⟨hlen, hrows, hr0, hc0, hcon⟩ := hW
  refine ⟨?_, ?_, hr0, hc0, hcon⟩
  · simpa [setCell_length] using hlen
  · exact setCell_row_lengths _ _ _ _ _ (by rw [hlen]; exact hrlt) hrows

theorem undo_disc_ok (g : ConnectFour) (mv : MoveResult)
    (h : getCell g.board mv.row mv.col = mv.player) :
    undo_disc g mv = .ok { g with board := setCell g.board mv.row mv.col 0
                                  last_move := none
                                  current_player := mv.player } := by
  unfold undo_disc
  simp [h]

/-- The drop/undo round trip at the heart of the in-place traversal: for a
legal column, the drop succeeds, and undoing it from any state that has
the same board and (flipped) turn owner as the child — the search returns
from the subtree with both restored, though possibly a different
`last_move` — gives back `g` with `last_move` cleared. -/
theorem drop_undo_cancel (g : ConnectFour) (a : Nat) (hW : WFB g)
    (ha : a < g.cols) (h0 : getCell g.board 0 a = 0) (lm : Option MoveResult) :
    ∃ r, drop_disc g (a : Int) g.current_player = .ok (⟨r, a, g.current_player⟩, childState g a) ∧
      undo_disc { childState g a with last_move := lm } ⟨r, a, g.current_player⟩ =
        .ok { g with last_move := none } := by
  obtain ⟨r, _, hrlt, hcell0, hdrop, hcs⟩ := drop_disc_ok g a hW ha h0
  have hrb : r < g.board.length := by rw [hW.1]; exact hrlt
  have hab : a < (g.board.getD r []).length := by
    rw [hW.2.1 _ (list_getD_mem _ _ _ hrb)]; exact ha
  refine ⟨r, by rw [hdrop, ← hcs], ?_⟩
  have hcell : getCell ({ childState g a with last_move := lm }).board r a = g.current_player := by
    rw [hcs]
    exact getCell_setCell_self _ _ _ _ hrb hab
  rw [undo_disc_ok _ _ hcell]
  have hbd : setCell (setCell g.board r a g.current_player) r a 0 = g.board :=
    setCell_cancel _ _ _ _ hrb hab hcell0
  rw [hcs]
  simp [ConnectFour.mk.injEq, hbd]

/-
Bridge lemmas: on well-formed states every monadic search function
succeeds, restores the board and the turn owner of its input state
(clearing `last_move` whenever it tried at least one move), and returns
the observables computed by its pure companion.
-/

/-- Column `a` is a legal move on `g`. -/
def colOK (g : ConnectFour) (a : Nat) : Prop :=
  a < g.cols ∧ getCell g.board 0 a = 0

theorem searchLoopP_last (better : Int → Int → Bool) (step : ConnectFour → Int × Nat)
    (g : ConnectFour) (lm : Option MoveResult) (hW : WFB g) :
    ∀ (as : List Nat) (v : Int), (∀ a ∈ as, colOK g a) →
      searchLoopP better step { g with last_move := lm } as v =
        searchLoopP better step g as v := by
  intro as
  induction as with
  | nil => intro v _; rfl
  | cons a rest ih =>
    intro v hok
    obtain ⟨ha, h0⟩ := hok a (List.mem_cons_self a rest)
    have hokr : ∀ b ∈ rest, colOK g b := fun b hb => hok b (List.mem_cons_of_mem a hb)
    simp only [searchLoopP]
    rw [childState_last g lm a hW ha h0, ih _ hokr]

theorem searchLoop_bridge (better : Int → Int → Bool)
    (stepM : ConnectFour → Except String (Int × ConnectFour × Nat))
    (stepP : ConnectFour → Int × Nat)
    (hstep : ∀ h : ConnectFour, WFB h → ∃ lm,
      stepM h = .ok ((stepP h).1, { h with last_move := lm }, (stepP h).2)) :
    ∀ (as : List Nat) (g : ConnectFour) (v : Int), WFB g →
      (∀ a ∈ as, colOK g a) →
      ∃ lm, searchLoop better stepM g as v =
          .ok ((searchLoopP better stepP g as v).1, { g with last_move := lm },
               (searchLoopP better stepP g as v).2) ∧
        (as = [] → lm = g.last_move) ∧ (as ≠ [] → lm = none) := by
  intro as
  induction as with
  | nil =>
    intro g v hW _
    exact ⟨g.last_move, by simp [searchLoop, searchLoopP], fun _ => rfl,
      fun h => absurd rfl h⟩
  | cons a rest ih =>
    intro g v hW hok
    obtain ⟨ha, h0⟩ := hok a (List.mem_cons_self a rest)
    have hokr : ∀ b ∈ rest, colOK g b := fun b hb => hok b (List.mem_cons_of_mem a hb)
    have hWc := WFB_childState g a hW ha h0
    obtain ⟨lm1, hstep1⟩ := hstep (childState g a) hWc
    obtain ⟨r, hdrop, hundo⟩ := drop_undo_cancel g a hW ha h0 lm1
    have hWn : WFB { g with last_move := none } := (WFB_last g none).mpr hW
    obtain ⟨lm2, hrec, hnil2, hcons2⟩ :=
      ih { g with last_move := none }
        (if better (stepP (childState g a)).1 v then (stepP (childState g a)).1 else v)
        hWn hokr
    have hplast := searchLoopP_last better stepP g none hW rest
      (if better (stepP (childState g a)).1 v then (stepP (childState g a)).1 else v) hokr
    rw [hplast] at hrec
    have hlm2 : lm2 = none := by
      cases rest with
      | nil => simpa using hnil2 rfl
      | cons b bs => exact hcons2 (by simp)
    refine ⟨lm2, ?_, fun h => absurd h (List.cons_ne_nil a rest), fun _ => hlm2⟩
    simp only [searchLoop, hdrop, hstep1, hundo, hrec, searchLoopP]

theorem mmNode_bridge (ai : Int) (dl : Nat) :
    ∀ (fuel : Nat) (isMax : Bool) (d : Nat) (g : ConnectFour), WFB g → dl ≤ d + fuel →
      ∃ lm, mmNode ai dl fuel isMax d g =
        .ok ((mmPNode ai dl fuel isMax d g).1, { g with last_move := lm },
             (mmPNode ai dl fuel isMax d g).2) := by
  intro fuel
  induction fuel with
  | zero =>
    intro isMax d g hW hfd
    have hdl : dl ≤ d := by simpa using hfd
    by_cases ht : terminal g
    · exact ⟨g.last_move, by simp [mmNode, mmPNode, ht]⟩
    · exact ⟨g.last_move, by simp [mmNode, mmPNode, ht, hdl]⟩
  | succ fuel' ih =>
    intro isMax d g hW hfd
    by_cases ht : terminal g
    · exact ⟨g.last_move, by simp [mmNode, mmPNode, ht]⟩
    by_cases hdl : dl ≤ d
    · exact ⟨g.last_move, by simp [mmNode, mmPNode, ht, hdl]⟩
    have hok : ∀ a ∈ actions g, colOK g a := fun a hmem => (mem_actions g a).1 hmem
    cases isMax with
    | true =>
      obtain ⟨lm, hloop, _, _⟩ :=
        searchLoop_bridge (fun val v => decide (v < val))
          (mmNode ai dl fuel' false (d + 1)) (fun h => mmPNode ai dl fuel' false (d + 1) h)
          (fun h hWh => ih false (d + 1) h hWh (by omega))
          (actions g) g (-bigE) hW hok
      refine ⟨lm, ?_⟩
      simp [mmNode, mmPNode, if_neg ht, if_neg hdl, hloop]
    | false =>
      obtain ⟨lm, hloop, _, _⟩ :=
        searchLoop_bridge (fun val v => decide (val < v))
          (mmNode ai dl fuel' true (d + 1)) (fun h => mmPNode ai dl fuel' true (d + 1) h)
          (fun h hWh => ih true (d + 1) h hWh (by omega))
          (actions g) g bigE hW hok
      refine ⟨lm, ?_⟩
      simp [mmNode, mmPNode, if_neg ht, if_neg hdl, hloop]

theorem rootLoopP_last (better : Int → Int → Bool) (step : ConnectFour → Int × Nat)
    (g : ConnectFour) (lm : Option MoveResult) (hW : WFB g) :
    ∀ (as : List Nat) (bv : Int) (bm : Option Nat), (∀ a ∈ as, colOK g a) →
      rootLoopP better step { g with last_move := lm } as bv bm =
        rootLoopP better step g as bv bm := by
  intro as
  induction as with
  | nil => intro bv bm _; rfl
  | cons a rest ih =>
    intro bv bm hok
    obtain ⟨ha, h0⟩ := hok a (List.mem_cons_self a rest)
    have hokr : ∀ b ∈ rest, colOK g b := fun b hb => hok b (List.mem_cons_of_mem a hb)
    simp only [rootLoopP]
    rw [childState_last g lm a hW ha h0, ih _ _ hokr]

theorem rootLoop_bridge (better : Int → Int → Bool)
    (stepM : ConnectFour → Except String (Int × ConnectFour × Nat))
    (stepP : ConnectFour → Int × Nat)
    (hstep : ∀ h : ConnectFour, WFB h → ∃ lm,
      stepM h = .ok ((stepP h).1, { h with last_move := lm }, (stepP h).2)) :
    ∀ (as : List Nat) (g : ConnectFour) (bv : Int) (bm : Option Nat), WFB g →
      (∀ a ∈ as, colOK g a) →
      ∃ lm, rootLoop better stepM g as bv bm =
          .ok ((rootLoopP better stepP g as bv bm).1,
               (rootLoopP better stepP g as bv bm).2.1,
               { g with last_move := lm },
               (rootLoopP better stepP g as bv bm).2.2) ∧
        (as = [] → lm = g.last_move) ∧ (as ≠ [] → lm = none) := by
  intro as
  induction as with
  | nil =>
    intro g bv bm hW _
    exact ⟨g.last_move, by simp [rootLoop, rootLoopP], fun _ => rfl,
      fun h => absurd rfl h⟩
  | cons a rest ih =>
    intro g bv bm hW hok
    obtain ⟨ha, h0⟩ := hok a (List.mem_cons_self a rest)
    have hokr : ∀ b ∈ rest, colOK g b := fun b hb => hok b (List.mem_cons_of_mem a hb)
    have hWc := WFB_childState g a hW ha h0
    obtain ⟨lm1, hstep1⟩ := hstep (childState g a) hWc
    obtain ⟨r, hdrop, hundo⟩ := drop_undo_cancel g a hW ha h0 lm1
    have hWn : WFB { g with last_move := none } := (WFB_last g none).mpr hW
    obtain ⟨lm2, hrec, hnil2, hcons2⟩ :=
      ih { g with last_move := none }
        (if better (stepP (childState g a)).1 bv then (stepP (childState g a)).1 else bv)
        (if better (stepP (childState g a)).1 bv then some a else bm)
        hWn hokr
    have hplast := rootLoopP_last better stepP g none hW rest
      (if better (stepP (childState g a)).1 bv then (stepP (childState g a)).1 else bv)
      (if better (stepP (childState g a)).1 bv then some a else bm) hokr
    rw [hplast] at hrec
    have hlm2 : lm2 = none := by
      cases rest with
      | nil => simpa using hnil2 rfl
      | cons b bs => exact hcons2 (by simp)
    refine ⟨lm2, ?_, fun h => absurd h (List.cons_ne_nil a rest), fun _ => hlm2⟩
    simp only [rootLoop, hdrop, hstep1, hundo, hrec, rootLoopP]

theorem minimax_decision_bridge (g : ConnectFour) (ai : Int) (dl : Nat) (hW : WFB g) :
    ∃ lm, minimax_decision g ai dl =
        .ok ((mmPure g ai dl).1, (mmPure g ai dl).2.1, { g with last_move := lm },
             (mmPure g ai dl).2.2) ∧
      (actions g = [] → lm = g.last_move) ∧ (actions g ≠ [] → lm = none) := by
  have hok : ∀ a ∈ actions g, colOK g a := fun a h => (mem_actions g a).1 h
  by_cases hcp : g.current_player = ai
  · obtain ⟨lm, h1, h2, h3⟩ :=
      rootLoop_bridge (fun val v => decide (v < val)) (mmNode ai dl dl false 1)
        (fun h => mmPNode ai dl dl false 1 h)
        (fun h hWh => mmNode_bridge ai dl dl false 1 h hWh (by omega))
        (actions g) g (-bigE) none hW hok
    exact ⟨lm, by simp [minimax_decision, mmPure, hcp, h1], h2, h3⟩
  · obtain ⟨lm, h1, h2, h3⟩ :=
      rootLoop_bridge (fun val v => decide (val < v)) (mmNode ai dl dl true 1)
        (fun h => mmPNode ai dl dl true 1 h)
        (fun h hWh => mmNode_bridge ai dl dl true 1 h hWh (by omega))
        (actions g) g bigE none hW hok
    exact ⟨lm, by simp [minimax_decision, mmPure, hcp, h1], h2, h3⟩

theorem abLoopP_last (better : Int → Int → Bool) (upd : Int → Int → Int → Int × Int)
    (step : Int → Int → ConnectFour → Int × Nat × Nat) (rp : Bool)
    (g : ConnectFour) (lm : Option MoveResult) (hW : WFB g) :
    ∀ (as : List Nat) (v alpha beta : Int), (∀ a ∈ as, colOK g a) →
      abLoopP better upd step rp { g with last_move := lm } as v alpha beta =
        abLoopP better upd step rp g as v alpha beta := by
  intro as
  induction as with
  | nil => intro v alpha beta _; rfl
  | cons a rest ih =>
    intro v alpha beta hok
    obtain ⟨ha, h0⟩ := hok a (List.mem_cons_self a rest)
    have hokr : ∀ b ∈ rest, colOK g b := fun b hb => hok b (List.mem_cons_of_mem a hb)
    simp only [abLoopP]
    rw [childState_last g lm a hW ha h0, ih _ _ _ hokr]

theorem abLoop_bridge (better : Int → Int → Bool) (upd : Int → Int → Int → Int × Int)
    (stepM : Int → Int → ConnectFour → Except String (Int × ConnectFour × Nat × Nat))
    (stepP : Int → Int → ConnectFour → Int × Nat × Nat) (rp : Bool)
    (hstep : ∀ (alpha beta : Int) (h : ConnectFour), WFB h → ∃ lm,
      stepM alpha beta h = .ok ((stepP alpha beta h).1, { h with last_move := lm },
        (stepP alpha beta h).2.1, (stepP alpha beta h).2.2)) :
    ∀ (as : List Nat) (g : ConnectFour) (v alpha beta : Int), WFB g →
      (∀ a ∈ as, colOK g a) →
      ∃ lm, abLoop better upd stepM rp g as v alpha beta =
          .ok ((abLoopP better upd stepP rp g as v alpha beta).1,
               { g with last_move := lm },
               (abLoopP better upd stepP rp g as v alpha beta).2.1,
               (abLoopP better upd stepP rp g as v alpha beta).2.2) ∧
        (as = [] → lm = g.last_move) ∧ (as ≠ [] → lm = none) := by
  intro as
  induction as with
  | nil =>
    intro g v alpha beta hW _
    exact ⟨g.last_move, by simp [abLoop, abLoopP], fun _ => rfl, fun h => absurd rfl h⟩
  | cons a rest ih =>
    intro g v alpha beta hW hok
    obtain ⟨ha, h0⟩ := hok a (List.mem_cons_self a rest)
    have hokr : ∀ b ∈ rest, colOK g b := fun b hb => hok b (List.mem_cons_of_mem a hb)
    have hWc := WFB_childState g a hW ha h0
    obtain ⟨lm1, hstep1⟩ := hstep alpha beta (childState g a) hWc
    obtain ⟨r, hdrop, hundo⟩ := drop_undo_cancel g a hW ha h0 lm1
    have hWn : WFB { g with last_move := none } := (WFB_last g none).mpr hW
    by_cases hcut : (upd (if better (stepP alpha beta (childState g a)).1 v
        then (stepP alpha beta (childState g a)).1 else v) alpha beta).2 ≤
        (upd (if better (stepP alpha beta (childState g a)).1 v
        then (stepP alpha beta (childState g a)).1 else v) alpha beta).1
    · refine ⟨none, ?_, fun h => absurd h (List.cons_ne_nil a rest), fun _ => rfl⟩
      simp only [abLoop, hdrop, hstep1, hundo, abLoopP, if_pos hcut]
    · obtain ⟨lm2, hrec, hnil2, hcons2⟩ :=
        ih { g with last_move := none }
          (if better (stepP alpha beta (childState g a)).1 v
            then (stepP alpha beta (childState g a)).1 else v)
          (upd (if better (stepP alpha beta (childState g a)).1 v
            then (stepP alpha beta (childState g a)).1 else v) alpha beta).1
          (upd (if better (stepP alpha beta (childState g a)).1 v
            then (stepP alpha beta (childState g a)).1 else v) alpha beta).2
          hWn hokr
      have hplast := abLoopP_last better upd stepP rp g none hW rest
        (if better (stepP alpha beta (childState g a)).1 v
          then (stepP alpha beta (childState g a)).1 else v)
        (upd (if better (stepP alpha beta (childState g a)).1 v
          then (stepP alpha beta (childState g a)).1 else v) alpha beta).1
        (upd (if better (stepP alpha beta (childState g a)).1 v
          then (stepP alpha beta (childState g a)).1 else v) alpha beta).2 hokr
      rw [hplast] at hrec
      have hlm2 : lm2 = none := by
        cases rest with
        | nil => simpa using hnil2 rfl
        | cons b bs => exact hcons2 (by simp)
      refine ⟨lm2, ?_, fun h => absurd h (List.cons_ne_nil a rest), fun _ => hlm2⟩
      simp only [abLoop, hdrop, hstep1, hundo, abLoopP, if_neg hcut, hrec]

theorem abNode_bridge (ai : Int) (dl : Nat) (td : Option Nat) :
    ∀ (fuel : Nat) (isMax : Bool) (d : Nat) (alpha beta : Int) (g : ConnectFour),
      WFB g → dl ≤ d + fuel →
      ∃ lm, abNode ai dl td fuel isMax d alpha beta g =
        .ok ((abPNode ai dl td fuel isMax d alpha beta g).1, { g with last_move := lm },
             (abPNode ai dl td fuel isMax d alpha beta g).2.1,
             (abPNode ai dl td fuel isMax d alpha beta g).2.2) := by
  intro fuel
  induction fuel with
  | zero =>
    intro isMax d alpha beta g hW hfd
    have hdl : dl ≤ d := by simpa using hfd
    by_cases ht : terminal g
    · exact ⟨g.last_move, by simp [abNode, abPNode, ht]⟩
    · exact ⟨g.last_move, by simp [abNode, abPNode, ht, hdl]⟩
  | succ fuel' ih =>
    intro isMax d alpha beta g hW hfd
    by_cases ht : terminal g
    · exact ⟨g.last_move, by simp [abNode, abPNode, ht]⟩
    by_cases hdl : dl ≤ d
    · exact ⟨g.last_move, by simp [abNode, abPNode, ht, hdl]⟩
    have hok : ∀ a ∈ actions g, colOK g a := fun a hmem => (mem_actions g a).1 hmem
    cases isMax with
    | true =>
      obtain ⟨lm, hloop, _, _⟩ :=
        abLoop_bridge (fun val v => decide (v < val))
          (fun v a b => (if a < v then v else a, b))
          (abNode ai dl td fuel' false (d + 1))
          (fun x y h => abPNode ai dl td fuel' false (d + 1) x y h)
          (rpAt td d)
          (fun x y h hWh => ih false (d + 1) x y h hWh (by omega))
          (actions g) g (-bigE) alpha beta hW hok
      refine ⟨lm, ?_⟩
      simp [abNode, abPNode, if_neg ht, if_neg hdl, hloop]
    | false =>
      obtain ⟨lm, hloop, _, _⟩ :=
        abLoop_bridge (fun val v => decide (val < v))
          (fun v a b => (a, if v < b then v else b))
          (abNode ai dl td fuel' true (d + 1))
          (fun x y h => abPNode ai dl td fuel' true (d + 1) x y h)
          (rpAt td d)
          (fun x y h hWh => ih true (d + 1) x y h hWh (by omega))
          (actions g) g bigE alpha beta hW hok
      refine ⟨lm, ?_⟩
      simp [abNode, abPNode, if_neg ht, if_neg hdl, hloop]

theorem abRootLoopP_last (better : Int → Int → Bool) (upd : Int → Int → Int → Int × Int)
    (step : Int → Int → ConnectFour → Int × Nat × Nat) (rp : Bool)
    (g : ConnectFour) (lm : Option MoveResult) (hW : WFB g) :
    ∀ (as : List Nat) (bv : Int) (bm : Option Nat) (alpha beta : Int),
      (∀ a ∈ as, colOK g a) →
      abRootLoopP better upd step rp { g with last_move := lm } as bv bm alpha beta =
        abRootLoopP better upd step rp g as bv bm alpha beta := by
  intro as
  induction as with
  | nil => intro bv bm alpha beta _; rfl
  | cons a rest ih =>
    intro bv bm alpha beta hok
    obtain ⟨ha, h0⟩ := hok a (List.mem_cons_self a rest)
    have hokr : ∀ b ∈ rest, colOK g b := fun b hb => hok b (List.mem_cons_of_mem a hb)
    simp only [abRootLoopP]
    rw [childState_last g lm a hW ha h0, ih _ _ _ _ hokr]

theorem abRootLoop_bridge (better : Int → Int → Bool) (upd : Int → Int → Int → Int × Int)
    (stepM : Int → Int → ConnectFour → Except String (Int × ConnectFour × Nat × Nat))
    (stepP : Int → Int → ConnectFour → Int × Nat × Nat) (rp : Bool)
    (hstep : ∀ (alpha beta : Int) (h : ConnectFour), WFB h → ∃ lm,
      stepM alpha beta h = .ok ((stepP alpha beta h).1, { h with last_move := lm },
        (stepP alpha beta h).2.1, (stepP alpha beta h).2.2)) :
    ∀ (as : List Nat) (g : ConnectFour) (bv : Int) (bm : Option Nat) (alpha beta : Int),
      WFB g → (∀ a ∈ as, colOK g a) →
      ∃ lm, abRootLoop better upd stepM rp g as bv bm alpha beta =
          .ok ((abRootLoopP better upd stepP rp g as bv bm alpha beta).1,
               (abRootLoopP better upd stepP rp g as bv bm alpha beta).2.1,
               { g with last_move := lm },
               (abRootLoopP better upd stepP rp g as bv bm alpha beta).2.2.1,
               (abRootLoopP better upd stepP rp g as bv bm alpha beta).2.2.2) ∧
        (as = [] → lm = g.last_move) ∧ (as ≠ [] → lm = none) := by
  intro as
  induction as with
  | nil =>
    intro g bv bm alpha beta hW _
    exact ⟨g.last_move, by simp [abRootLoop, abRootLoopP], fun _ => rfl,
      fun h => absurd rfl h⟩
  | cons a rest ih =>
    intro g bv bm alpha beta hW hok
    obtain ⟨ha, h0⟩ := hok a (List.mem_cons_self a rest)
    have hokr : ∀ b ∈ rest, colOK g b := fun b hb => hok b (List.mem_cons_of_mem a hb)
    have hWc := WFB_childState g a hW ha h0
    obtain ⟨lm1, hstep1⟩ := hstep alpha beta (childState g a) hWc
    obtain ⟨r, hdrop, hundo⟩ := drop_undo_cancel g a hW ha h0 lm1
    have hWn : WFB { g with last_move := none } := (WFB_last g none).mpr hW
    by_cases hcut : (upd (if better (stepP alpha beta (childState g a)).1 bv
        then (stepP alpha beta (childState g a)).1 else bv) alpha beta).2 ≤
        (upd (if better (stepP alpha beta (childState g a)).1 bv
        then (stepP alpha beta (childState g a)).1 else bv) alpha beta).1
    · refine ⟨none, ?_, fun h => absurd h (List.cons_ne_nil a rest), fun _ => rfl⟩
      simp only [abRootLoop, hdrop, hstep1, hundo, abRootLoopP, if_pos hcut]
    · obtain ⟨lm2, hrec, hnil2, hcons2⟩ :=
        ih { g with last_move := none }
          (if better (stepP alpha beta (childState g a)).1 bv
            then (stepP alpha beta (childState g a)).1 else bv)
          (if better (stepP alpha beta (childState g a)).1 bv then some a else bm)
          (upd (if better (stepP alpha beta (childState g a)).1 bv
            then (stepP alpha beta (childState g a)).1 else bv) alpha beta).1
          (upd (if better (stepP alpha beta (childState g a)).1 bv
            then (stepP alpha beta (childState g a)).1 else bv) alpha beta).2
          hWn hokr
      have hplast := abRootLoopP_last better upd stepP rp g none hW rest
        (if better (stepP alpha beta (childState g a)).1 bv
          then (stepP alpha beta (childState g a)).1 else bv)
        (if better (stepP alpha beta (childState g a)).1 bv then some a else bm)
        (upd (if better (stepP alpha beta (childState g a)).1 bv
          then (stepP alpha beta (childState g a)).1 else bv) alpha beta).1
        (upd (if better (stepP alpha beta (childState g a)).1 bv
          then (stepP alpha beta (childState g a)).1 else bv) alpha beta).2 hokr
      rw [hplast] at hrec
      have hlm2 : lm2 = none := by
        cases rest with
        | nil => simpa using hnil2 rfl
        | cons b bs => exact hcons2 (by simp)
      refine ⟨lm2, ?_, fun h => absurd h (List.cons_ne_nil a rest), fun _ => hlm2⟩
      simp only [abRootLoop, hdrop, hstep1, hundo, abRootLoopP, if_neg hcut, hrec]

theorem alphabeta_decision_bridge (g : ConnectFour) (ai : Int) (dl : Nat)
    (td : Option Nat) (hW : WFB g) :
    ∃ lm, alphabeta_decision g ai dl td =
        .ok ((abPure g ai dl td).1, (abPure g ai dl td).2.1, { g with last_move := lm },
             (abPure g ai dl td).2.2.1, (abPure g ai dl td).2.2.2) ∧
      (actions g = [] → lm = g.last_move) ∧ (actions g ≠ [] → lm = none) := by
  have hok : ∀ a ∈ actions g, colOK g a := fun a h => (mem_actions g a).1 h
  by_cases hcp : g.current_player = ai
  · obtain ⟨lm, h1, h2, h3⟩ :=
      abRootLoop_bridge (fun val v => decide (v < val))
        (fun v a b => (if a < v then v else a, b))
        (abNode ai dl td dl false 1)
        (fun x y h => abPNode ai dl td dl false 1 x y h)
        (rpAt td 0)
        (fun x y h hWh => abNode_bridge ai dl td dl false 1 x y h hWh (by omega))
        (actions g) g (-bigE) none (-bigE) bigE hW hok
    exact ⟨lm, by simp [alphabeta_decision, abPure, hcp, h1], h2, h3⟩
  · obtain ⟨lm, h1, h2, h3⟩ :=
      abRootLoop_bridge (fun val v => decide (val < v))
        (fun v a b => (a, if v < b then v else b))
        (abNode ai dl td dl true 1)
        (fun x y h => abPNode ai dl td dl true 1 x y h)
        (rpAt td 0)
        (fun x y h hWh => abNode_bridge ai dl td dl true 1 x y h hWh (by omega))
        (actions g) g bigE none (-bigE) bigE hW hok
    exact ⟨lm, by simp [alphabeta_decision, abPure, hcp, h1], h2, h3⟩

/-
Claim theorems.
-/

/-- C7: `drop_disc` fails exactly when the column index is out of range
(negative or ≥ `cols`) or the column's top cell is occupied — the checks
all precede any mutation, and the embedding returns an error without
producing any successor state, mirroring the Python method raising before
it mutates.  On success the disc lands in the lowest empty row of the
column (that row is empty and every row below it is occupied), the move is
recorded as `last_move`, and the turn owner flips exactly when the acting
player equals the pre-call turn owner. -/
theorem claim_C7_drop_disc_contract (g : ConnectFour) (col p : Int) (hW : WFB g) :
    ((∃ e, drop_disc g col p = .error e) ↔
      (col < 0 ∨ (g.cols : Int) ≤ col ∨ getCell g.board 0 col.toNat ≠ 0)) ∧
    (∀ mv g', drop_disc g col p = .ok (mv, g') →
      mv.col = col.toNat ∧ mv.player = p ∧
      getCell g.board mv.row mv.col = 0 ∧
      (∀ j, mv.row < j → j < g.rows → getCell g.board j mv.col ≠ 0) ∧
      g'.board = setCell g.board mv.row mv.col p ∧
      g'.last_move = some mv ∧
      g'.rows = g.rows ∧ g'.cols = g.cols ∧ g'.connect = g.connect ∧
      (p = g.current_player → g'.current_player = -g.current_player) ∧
      (p ≠ g.current_player → g'.current_player = g.current_player)) := by
  by_cases hrange : col < 0 ∨ (g.cols : Int) ≤ col
  · have herr : drop_disc g col p = .error "Column out of bounds." := by
      unfold drop_disc; rw [if_pos hrange]
    constructor
    · constructor
      · intro _
        rcases hrange with h | h
        · exact Or.inl h
        · exact Or.inr (Or.inl h)
      · intro _; exact ⟨_, herr⟩
    · intro mv g' hok
      rw [herr] at hok
      cases hok
  · by_cases hfull : getCell g.board 0 col.toNat ≠ 0
    · constructor
      · constructor
        · intro _; exact Or.inr (Or.inr hfull)
        · intro _; exact ⟨_, by unfold drop_disc; rw [if_neg hrange, if_pos hfull]⟩
      · intro mv g' hok
        unfold drop_disc at hok
        rw [if_neg hrange, if_pos hfull] at hok
        cases hok
    · push_neg at hfull
      push_neg at hrange
      obtain ⟨r, hfr⟩ := findRowAux_isSome g col.toNat hfull g.rows hW.2.2.1
      obtain ⟨hrlt, hr0, habove⟩ := findRowAux_some g col.toNat g.rows r hfr
      have hok : drop_disc g col p =
          .ok (⟨r, col.toNat, p⟩,
            { g with board := setCell g.board r col.toNat p
                     last_move := some ⟨r, col.toNat, p⟩
                     current_player := if p = g.current_player then -g.current_player
                       else g.current_player }) := by
        unfold drop_disc
        rw [if_neg (by push_neg; exact hrange), if_neg (by simp [hfull]), hfr]
      constructor
      · constructor
        · intro ⟨e, he⟩
          rw [hok] at he
          cases he
        · intro h
          rcases h with h | h | h
          · exact absurd h (by omega)
          · exact absurd h (by omega)
          · exact absurd hfull h
      · intro mv g' hmv
        rw [hok] at hmv
        injection hmv with hmv
        injection hmv with h1 h2
        subst h1
        subst h2
        refine ⟨rfl, rfl, hr0, habove, rfl, rfl, rfl, rfl, rfl, ?_, ?_⟩
        · intro hpe; simp [hpe]
        · intro hpe; simp [hpe]

/-- C7 witness: the contract evaluated on a concrete well-formed state. -/
theorem claim_C7_witness :
    WFB ⟨1, 2, 3, [[0, 0]], 1, none⟩ ∧
    (((∃ e, drop_disc ⟨1, 2, 3, [[0, 0]], 1, none⟩ 0 1 = .error e) ↔
      ((0 : Int) < 0 ∨ ((ConnectFour.mk 1 2 3 [[0, 0]] 1 none).cols : Int) ≤ 0 ∨
        getCell (ConnectFour.mk 1 2 3 [[0, 0]] 1 none).board 0 ((0 : Int)).toNat ≠ 0)) ∧
    (∀ mv g', drop_disc ⟨1, 2, 3, [[0, 0]], 1, none⟩ 0 1 = .ok (mv, g') →
      mv.col = ((0 : Int)).toNat ∧ mv.player = 1 ∧
      getCell (ConnectFour.mk 1 2 3 [[0, 0]] 1 none).board mv.row mv.col = 0 ∧
      (∀ j, mv.row < j → j < (ConnectFour.mk 1 2 3 [[0, 0]] 1 none).rows →
        getCell (ConnectFour.mk 1 2 3 [[0, 0]] 1 none).board j mv.col ≠ 0) ∧
      g'.board = setCell (ConnectFour.mk 1 2 3 [[0, 0]] 1 none).board mv.row mv.col 1 ∧
      g'.last_move = some mv ∧
      g'.rows = (ConnectFour.mk 1 2 3 [[0, 0]] 1 none).rows ∧
      g'.cols = (ConnectFour.mk 1 2 3 [[0, 0]] 1 none).cols ∧
      g'.connect = (ConnectFour.mk 1 2 3 [[0, 0]] 1 none).connect ∧
      (1 = (ConnectFour.mk 1 2 3 [[0, 0]] 1 none).current_player →
        g'.current_player = -(ConnectFour.mk 1 2 3 [[0, 0]] 1 none).current_player) ∧
      (1 ≠ (ConnectFour.mk 1 2 3 [[0, 0]] 1 none).current_player →
        g'.current_player = (ConnectFour.mk 1 2 3 [[0, 0]] 1 none).current_player))) :=
  ⟨by decide, claim_C7_drop_disc_contract ⟨1, 2, 3, [[0, 0]], 1, none⟩ 0 1 (by decide)⟩

/-- C2: on a well-formed non-terminal state, dropping the default mover's
disc in any legal column succeeds, the matching undo succeeds, and the
resulting state agrees with the pre-apply state bit-for-bit on the board
contents, the turn owner, and the terminal status.  (The `last_move`
anchor is cleared by the undo, which is why the claim — and this theorem —
speak of board, turn owner and terminal status.) -/
theorem claim_C2_apply_undo_roundtrip (g : ConnectFour) (a : Nat) (hW : WFB g)
    (ht : terminal g = false) (ha : a ∈ actions g) :
    ∃ mv g1 g2,
      drop_disc g (a : Int) g.current_player = .ok (mv, g1) ∧
      undo_disc g1 mv = .ok g2 ∧
      g2.board = g.board ∧ g2.current_player = g.current_player ∧
      terminal g2 = terminal g := by
  obtain ⟨hac, h0⟩ := (mem_actions g a).1 ha
  obtain ⟨r, hdrop, hundo⟩ := drop_undo_cancel g a hW hac h0 (childState g a).last_move
  obtain ⟨hw0, hf0⟩ := (terminal_false_iff g).1 ht
  refine ⟨⟨r, a, g.current_player⟩, childState g a, { g with last_move := none },
    hdrop, hundo, rfl, rfl, ?_⟩
  have hterm : terminal { g with last_move := none } = is_full g := by
    unfold terminal winner
    simp [is_full]
  rw [hterm, hf0, ht]

/-- C2 witness: the round trip on the standard empty 6×7 board, column 3. -/
theorem claim_C2_witness :
    WFB ⟨6, 7, 4, List.replicate 6 (List.replicate 7 0), 1, none⟩ ∧
    terminal ⟨6, 7, 4, List.replicate 6 (List.replicate 7 0), 1, none⟩ = false ∧
    3 ∈ actions ⟨6, 7, 4, List.replicate 6 (List.replicate 7 0), 1, none⟩ ∧
    (∃ mv g1 g2,
      drop_disc ⟨6, 7, 4, List.replicate 6 (List.replicate 7 0), 1, none⟩ ((3 : Nat) : Int)
          (ConnectFour.mk 6 7 4 (List.replicate 6 (List.replicate 7 0)) 1 none).current_player =
        .ok (mv, g1) ∧
      undo_disc g1 mv = .ok g2 ∧
      g2.board = (ConnectFour.mk 6 7 4 (List.replicate 6 (List.replicate 7 0)) 1 none).board ∧
      g2.current_player =
        (ConnectFour.mk 6 7 4 (List.replicate 6 (List.replicate 7 0)) 1 none).current_player ∧
      terminal g2 =
        terminal ⟨6, 7, 4, List.replicate 6 (List.replicate 7 0), 1, none⟩) :=
  ⟨by decide, by decide, by decide,
    claim_C2_apply_undo_roundtrip ⟨6, 7, 4, List.replicate 6 (List.replicate 7 0), 1, none⟩ 3
      (by decide) (by decide) (by decide)⟩

/-- C10: any successful `undo_disc` clears the last-move anchor rather
than restoring the previous move, so `winner` returns 0 whatever discs
remain on the board, and the state can only be terminal through a full
top row until the next apply. -/
theorem claim_C10_undo_clears_anchor (g : ConnectFour) (mv : MoveResult)
    (g' : ConnectFour) (h : undo_disc g mv = .ok g') :
    g'.last_move = none ∧ winner g' = 0 ∧ terminal g' = is_full g' := by
  unfold undo_disc at h
  by_cases hc : getCell g.board mv.row mv.col ≠ mv.player
  · rw [if_pos hc] at h; cases h
  · rw [if_neg hc] at h
    injection h with h
    subst h
    refine ⟨rfl, rfl, ?_⟩
    unfold terminal winner
    simp

/-- C10 witness: undoing a recorded move on a board that still contains a
four-in-a-row for the other player. -/
theorem claim_C10_witness :
    undo_disc ⟨2, 4, 4, [[0, 0, 0, 1], [1, 1, 1, 1]], -1, some ⟨0, 3, 1⟩⟩ ⟨0, 3, 1⟩ =
      .ok ⟨2, 4, 4, [[0, 0, 0, 0], [1, 1, 1, 1]], 1, none⟩ ∧
    (ConnectFour.mk 2 4 4 [[0, 0, 0, 0], [1, 1, 1, 1]] 1 none).last_move = none ∧
    winner ⟨2, 4, 4, [[0, 0, 0, 0], [1, 1, 1, 1]], 1, none⟩ = 0 ∧
    terminal ⟨2, 4, 4, [[0, 0, 0, 0], [1, 1, 1, 1]], 1, none⟩ =
      is_full ⟨2, 4, 4, [[0, 0, 0, 0], [1, 1, 1, 1]], 1, none⟩ := by
  have h : undo_disc ⟨2, 4, 4, [[0, 0, 0, 1], [1, 1, 1, 1]], -1, some ⟨0, 3, 1⟩⟩ ⟨0, 3, 1⟩ =
      .ok ⟨2, 4, 4, [[0, 0, 0, 0], [1, 1, 1, 1]], 1, none⟩ := rfl
  exact ⟨h, claim_C10_undo_clears_anchor _ _ _ h⟩

/-- C3: at a terminal state both search node functions return the fixed
terminal value without consulting the heuristic — the equations hold for
every depth `d`, depth limit `dl` and fuel, in particular when
`dl ≤ d` would otherwise trigger the heuristic cutoff, because the
terminal test precedes the depth test; and that value is `+WIN_SCORE`
when `ai_player` won, `-WIN_SCORE` when the opponent won, and 0 for a
draw. -/
theorem claim_C3_terminal_leaf_value (g : ConnectFour) (ai : Int) (dl d fuel : Nat)
    (alpha beta : Int) (td : Option Nat) (isMax : Bool)
    (ht : terminal g = true) (hai : ai = 1 ∨ ai = -1) :
    mmNode ai dl fuel isMax d g = .ok (terminalValue g ai, g, 1) ∧
    abNode ai dl td fuel isMax d alpha beta g = .ok (terminalValue g ai, g, 1, 0) ∧
    (winner g = ai → terminalValue g ai = WIN_SCORE) ∧
    (winner g = -ai → terminalValue g ai = -WIN_SCORE) ∧
    (winner g = 0 → terminalValue g ai = 0) := by
  refine ⟨by cases fuel <;> simp [mmNode, ht], by cases fuel <;> simp [abNode, ht], ?_, ?_, ?_⟩
  · intro hw
    unfold terminalValue
    simp [hw]
  · intro hw
    have hne : -ai ≠ ai := by
      rcases hai with h | h <;> subst h <;> decide
    unfold terminalValue
    rw [hw, if_neg hne, if_pos rfl]
  · intro hw
    have h1 : (0 : Int) ≠ ai := by
      rcases hai with h | h <;> subst h <;> decide
    have h2 : (0 : Int) ≠ -ai := by
      rcases hai with h | h <;> subst h <;> decide
    unfold terminalValue
    rw [hw, if_neg h1, if_neg h2]

/-- C3 witness: a full 1×1 drawn board, evaluated with a nonzero depth
budget left (`dl = 3`, `d = 0`), where the draw value 0 is returned. -/
theorem claim_C3_witness :
    mmNode 1 3 2 true 0 ⟨1, 1, 3, [[-1]], 1, none⟩ =
      .ok (terminalValue ⟨1, 1, 3, [[-1]], 1, none⟩ 1, ⟨1, 1, 3, [[-1]], 1, none⟩, 1) ∧
    abNode 1 3 none 2 true 0 (-bigE) bigE ⟨1, 1, 3, [[-1]], 1, none⟩ =
      .ok (terminalValue ⟨1, 1, 3, [[-1]], 1, none⟩ 1, ⟨1, 1, 3, [[-1]], 1, none⟩, 1, 0) ∧
    (winner ⟨1, 1, 3, [[-1]], 1, none⟩ = 1 →
      terminalValue ⟨1, 1, 3, [[-1]], 1, none⟩ 1 = WIN_SCORE) ∧
    (winner ⟨1, 1, 3, [[-1]], 1, none⟩ = -1 →
      terminalValue ⟨1, 1, 3, [[-1]], 1, none⟩ 1 = -WIN_SCORE) ∧
    (winner ⟨1, 1, 3, [[-1]], 1, none⟩ = 0 →
      terminalValue ⟨1, 1, 3, [[-1]], 1, none⟩ 1 = 0) :=
  claim_C3_terminal_leaf_value ⟨1, 1, 3, [[-1]], 1, none⟩ 1 3 0 2 (-bigE) bigE none true
    (by decide) (Or.inl rfl)

/-- A mid-game position whose last-move anchor is set: a 1×2 board where
player 1 has just played column 0 and it is player 2's turn. -/
def c8Pre : ConnectFour := ⟨1, 2, 3, [[1, 0]], -1, some ⟨0, 0, 1⟩⟩

/-- The state `minimax_decision` actually leaves behind on `c8Pre`. -/
def c8Post : ConnectFour := ⟨1, 2, 3, [[1, 0]], -1, none⟩

/-- C8 counterexample: running `minimax_decision` on `c8Pre` (for the
player to move, depth limit 0) restores the board and the turn owner but
leaves the last-move anchor cleared to `none` instead of the pre-call
`some` record, so the state is not exactly restored to its pre-call value
as the claim states. -/
theorem claim_C8_counterexample :
    minimax_decision c8Pre (-1) 0 = .ok (some 1, 0, c8Post, 1) ∧
    c8Post.board = c8Pre.board ∧ c8Post.current_player = c8Pre.current_player ∧
    c8Post.last_move ≠ c8Pre.last_move := by
  refine ⟨rfl, rfl, rfl, by decide⟩

/-- C8 amended: after either decision function returns on a well-formed
state, the board contents and the turn owner are exactly restored on every
path (including alpha-beta pruning cutoffs); the last-move anchor however
is cleared to `none` whenever at least one move was tried (it is
unchanged only in the degenerate no-legal-move case, where the move loops
never run and the state is returned untouched).  Bit-for-bit restoration
including the anchor therefore holds exactly when the pre-call anchor was
already `none`. -/
theorem claim_C8_amended_restoration (g : ConnectFour) (ai : Int) (dl : Nat)
    (td : Option Nat) (hW : WFB g) :
    (∀ bm bv g' n, minimax_decision g ai dl = .ok (bm, bv, g', n) →
      g'.board = g.board ∧ g'.current_player = g.current_player ∧
      (actions g ≠ [] → g'.last_move = none) ∧ (actions g = [] → g' = g)) ∧
    (∀ bm bv g' n p, alphabeta_decision g ai dl td = .ok (bm, bv, g', n, p) →
      g'.board = g.board ∧ g'.current_player = g.current_player ∧
      (actions g ≠ [] → g'.last_move = none) ∧ (actions g = [] → g' = g)) := by
  obtain ⟨lm1, h1, h1nil, h1cons⟩ := minimax_decision_bridge g ai dl hW
  obtain ⟨lm2, h2, h2nil, h2cons⟩ := alphabeta_decision_bridge g ai dl td hW
  constructor
  · intro bm bv g' n hmm
    rw [h1] at hmm
    simp only [Except.ok.injEq, Prod.mk.injEq] at hmm
    obtain ⟨-, -, hg, -⟩ := hmm
    subst hg
    refine ⟨rfl, rfl, fun hne => by rw [h1cons hne], fun hnil => by rw [h1nil hnil]⟩
  · intro bm bv g' n p hab
    rw [h2] at hab
    simp only [Except.ok.injEq, Prod.mk.injEq] at hab
    obtain ⟨-, -, hg, -⟩ := hab
    subst hg
    refine ⟨rfl, rfl, fun hne => by rw [h2cons hne], fun hnil => by rw [h2nil hnil]⟩

/-- C8 amended witness: the restoration facts instantiated on `c8Pre`. -/
theorem claim_C8_amended_witness :
    WFB c8Pre ∧
    ((∀ bm bv g' n, minimax_decision c8Pre (-1) 0 = .ok (bm, bv, g', n) →
      g'.board = c8Pre.board ∧ g'.current_player = c8Pre.current_player ∧
      (actions c8Pre ≠ [] → g'.last_move = none) ∧ (actions c8Pre = [] → g' = c8Pre)) ∧
    (∀ bm bv g' n p, alphabeta_decision c8Pre (-1) 0 (some 3) = .ok (bm, bv, g', n, p) →
      g'.board = c8Pre.board ∧ g'.current_player = c8Pre.current_player ∧
      (actions c8Pre ≠ [] → g'.last_move = none) ∧ (actions c8Pre = [] → g' = c8Pre))) :=
  ⟨by decide, claim_C8_amended_restoration c8Pre (-1) 0 (some 3) (by decide)⟩

theorem rootLoopP_move_mem (better : Int → Int → Bool) (step : ConnectFour → Int × Nat) :
    ∀ (as : List Nat) (g : ConnectFour) (bv : Int) (bm : Option Nat),
      (rootLoopP better step g as bv bm).1 = bm ∨
        ∃ a ∈ as, (rootLoopP better step g as bv bm).1 = some a := by
  intro as
  induction as with
  | nil => intro g bv bm; exact Or.inl rfl
  | cons a rest ih =>
    intro g bv bm
    simp only [rootLoopP]
    rcases ih g (if better (step (childState g a)).1 bv then (step (childState g a)).1 else bv)
        (if better (step (childState g a)).1 bv then some a else bm) with h | ⟨b, hb, h⟩
    · rw [h]
      by_cases hbet : better (step (childState g a)).1 bv = true
      · exact Or.inr ⟨a, List.mem_cons_self a rest, by rw [if_pos hbet]⟩
      · exact Or.inl (by rw [if_neg hbet])
    · exact Or.inr ⟨b, List.mem_cons_of_mem a hb, h⟩

theorem abRootLoopP_move_mem (better : Int → Int → Bool)
    (upd : Int → Int → Int → Int × Int)
    (step : Int → Int → ConnectFour → Int × Nat × Nat) (rp : Bool) :
    ∀ (as : List Nat) (g : ConnectFour) (bv : Int) (bm : Option Nat) (alpha beta : Int),
      (abRootLoopP better upd step rp g as bv bm alpha beta).1 = bm ∨
        ∃ a ∈ as, (abRootLoopP better upd step rp g as bv bm alpha beta).1 = some a := by
  intro as
  induction as with
  | nil => intro g bv bm alpha beta; exact Or.inl rfl
  | cons a rest ih =>
    intro g bv bm alpha beta
    simp only [abRootLoopP]
    by_cases hcut : (upd (if better (step alpha beta (childState g a)).1 bv
        then (step alpha beta (childState g a)).1 else bv) alpha beta).2 ≤
        (upd (if better (step alpha beta (childState g a)).1 bv
        then (step alpha beta (childState g a)).1 else bv) alpha beta).1
    · rw [if_pos hcut]
      by_cases hbet : better (step alpha beta (childState g a)).1 bv = true
      · exact Or.inr ⟨a, List.mem_cons_self a rest, by rw [if_pos hbet]⟩
      · exact Or.inl (by rw [if_neg hbet])
    · rw [if_neg hcut]
      rcases ih g
          (if better (step alpha beta (childState g a)).1 bv
            then (step alpha beta (childState g a)).1 else bv)
          (if better (step alpha beta (childState g a)).1 bv then some a else bm)
          (upd (if better (step alpha beta (childState g a)).1 bv
            then (step alpha beta (childState g a)).1 else bv) alpha beta).1
          (upd (if better (step alpha beta (childState g a)).1 bv
            then (step alpha beta (childState g a)).1 else bv) alpha beta).2
          with h | ⟨b, hb, h⟩
      · rw [h]
        by_cases hbet : better (step alpha beta (childState g a)).1 bv = true
        · exact Or.inr ⟨a, List.mem_cons_self a rest, by rw [if_pos hbet]⟩
        · exact Or.inl (by rw [if_neg hbet])
      · exact Or.inr ⟨b, List.mem_cons_of_mem a hb, h⟩

/-- C9: whenever `minimax_decision` or `alphabeta_decision` returns a
chosen column on a well-formed state, that column belongs to the state's
legal-move list (the ascending list of columns whose top cell is empty);
the root loops only ever store columns taken from that list. -/
theorem claim_C9_chosen_move_legal (g : ConnectFour) (ai : Int) (dl : Nat)
    (td : Option Nat) (hW : WFB g) :
    (∀ bm bv g' n, minimax_decision g ai dl = .ok (bm, bv, g', n) →
      ∀ c, bm = some c → c ∈ actions g) ∧
    (∀ bm bv g' n p, alphabeta_decision g ai dl td = .ok (bm, bv, g', n, p) →
      ∀ c, bm = some c → c ∈ actions g) := by
  obtain ⟨lm1, h1, -, -⟩ := minimax_decision_bridge g ai dl hW
  obtain ⟨lm2, h2, -, -⟩ := alphabeta_decision_bridge g ai dl td hW
  constructor
  · intro bm bv g' n hmm c hc
    rw [h1] at hmm
    simp only [Except.ok.injEq, Prod.mk.injEq] at hmm
    obtain ⟨hbm, -, -, -⟩ := hmm
    subst hbm
    unfold mmPure at hc
    by_cases hcp : g.current_player = ai
    · rw [if_pos hcp] at hc
      rcases rootLoopP_move_mem (fun val v => decide (v < val))
          (fun h => mmPNode ai dl dl false 1 h) (actions g) g (-bigE) none with h | ⟨b, hb, h⟩
      · rw [hc] at h; cases h
      · rw [hc] at h
        injection h with h
        exact h ▸ hb
    · rw [if_neg hcp] at hc
      rcases rootLoopP_move_mem (fun val v => decide (val < v))
          (fun h => mmPNode ai dl dl true 1 h) (actions g) g bigE none with h | ⟨b, hb, h⟩
      · rw [hc] at h; cases h
      · rw [hc] at h
        injection h with h
        exact h ▸ hb
  · intro bm bv g' n p hab c hc
    rw [h2] at hab
    simp only [Except.ok.injEq, Prod.mk.injEq] at hab
    obtain ⟨hbm, -, -, -⟩ := hab
    subst hbm
    unfold abPure at hc
    by_cases hcp : g.current_player = ai
    · rw [if_pos hcp] at hc
      rcases abRootLoopP_move_mem (fun val v => decide (v < val))
          (fun v a b => (if a < v then v else a, b))
          (fun x y h => abPNode ai dl td dl false 1 x y h) (rpAt td 0)
          (actions g) g (-bigE) none (-bigE) bigE with h | ⟨b, hb, h⟩
      · rw [hc] at h; cases h
      · rw [hc] at h
        injection h with h
        exact h ▸ hb
    · rw [if_neg hcp] at hc
      rcases abRootLoopP_move_mem (fun val v => decide (val < v))
          (fun v a b => (a, if v < b then v else b))
          (fun x y h => abPNode ai dl td dl true 1 x y h) (rpAt td 0)
          (actions g) g bigE none (-bigE) bigE with h | ⟨b, hb, h⟩
      · rw [hc] at h; cases h
      · rw [hc] at h
        injection h with h
        exact h ▸ hb

/-- C9 witness: legality of the chosen move instantiated on a concrete
state. -/
theorem claim_C9_witness :
    WFB ⟨1, 3, 3, [[0, 0, 0]], 1, none⟩ ∧
    ((∀ bm bv g' n, minimax_decision ⟨1, 3, 3, [[0, 0, 0]], 1, none⟩ 1 1 = .ok (bm, bv, g', n) →
      ∀ c, bm = some c → c ∈ actions ⟨1, 3, 3, [[0, 0, 0]], 1, none⟩) ∧
    (∀ bm bv g' n p, alphabeta_decision ⟨1, 3, 3, [[0, 0, 0]], 1, none⟩ 1 1 (some 3) =
        .ok (bm, bv, g', n, p) →
      ∀ c, bm = some c → c ∈ actions ⟨1, 3, 3, [[0, 0, 0]], 1, none⟩)) :=
  ⟨by decide, claim_C9_chosen_move_legal ⟨1, 3, 3, [[0, 0, 0]], 1, none⟩ 1 1 (some 3) (by decide)⟩

/-- C4: on every non-terminal (hence non-full) state and for either
perspective player, `evaluate` returns exactly the claim's sum: ±6 per
disc in the middle column, plus the window table (0 for mixed windows,
100000 / 200 / 30 for 4, 3-and-1-empty, 2-and-2-empty perspective
discs, and −100000 / −220 / −35 for the mirrored opponent counts)
summed over every 4-cell window in the four directions. -/
theorem claim_C4_evaluate_formula (g : ConnectFour) (player : Int)
    (ht : terminal g = false) (hp : player = 1 ∨ player = -1) :
    evaluate g player = evalSpec g player := by
  obtain ⟨hw, hf⟩ := (terminal_false_iff g).1 ht
  have hsw : specWindowScore = score_window := rfl
  have hcen : ∀ l : List Nat,
      (l.map (fun r =>
        if getCell g.board r (g.cols / 2) = player then (6 : Int)
        else if getCell g.board r (g.cols / 2) = -player then -6 else 0)).sum
      = 6 * (l.map (fun r =>
        if getCell g.board r (g.cols / 2) = player then (1 : Int)
        else if getCell g.board r (g.cols / 2) = -player then -1 else 0)).sum := by
    intro l
    induction l with
    | nil => simp
    | cons x xs ih =>
      simp only [List.map_cons, List.sum_cons, ih]
      split_ifs <;> ring
  have hp1 : ¬(winner g = player) := by
    rw [hw]; rcases hp with h | h <;> subst h <;> decide
  have hp2 : ¬(winner g = -player) := by
    rw [hw]; rcases hp with h | h <;> subst h <;> decide
  have hf2 : ¬(is_full g = true) := by rw [hf]; exact Bool.false_ne_true
  unfold evaluate evalSpec specCenterScore
  rw [if_neg hp1, if_neg hp2, if_neg hf2, hsw, hcen]

/-- C4 witness: the formula instantiated on a small non-terminal position
containing discs of both players. -/
theorem claim_C4_witness :
    terminal ⟨2, 4, 4, [[0, 0, 0, 0], [1, 1, -1, 0]], 1, none⟩ = false ∧
    evaluate ⟨2, 4, 4, [[0, 0, 0, 0], [1, 1, -1, 0]], 1, none⟩ 1 =
      evalSpec ⟨2, 4, 4, [[0, 0, 0, 0], [1, 1, -1, 0]], 1, none⟩ 1 :=
  ⟨by decide,
    claim_C4_evaluate_formula ⟨2, 4, 4, [[0, 0, 0, 0], [1, 1, -1, 0]], 1, none⟩ 1
      (by decide) (Or.inl rfl)⟩

/-- A board constructed with `connect = 5`: 1×5, four discs of player 1
in a row and one empty cell, nobody's move recorded. -/
def c5Board : ConnectFour := ⟨1, 5, 5, [[1, 1, 1, 1, 0]], 1, none⟩

/-- C5 counterexample: on `c5Board` (win length 5) the source's evaluator
scores the two 4-cell windows `[1,1,1,1]` (100000) and `[1,1,1,0]` (200)
plus the centre bonus 6, total 100206 — whereas scoring windows of length
`connect = 5` as the claim states (the single window `[1,1,1,1,0]`, worth
100000) gives 100006.  The evaluator's windows therefore have fixed
length 4, not length `connect`. -/
theorem claim_C5_counterexample :
    evaluate c5Board 1 = 100206 ∧ evaluateConnectLen c5Board 1 = 100006 ∧
    evaluate c5Board 1 ≠ evaluateConnectLen c5Board 1 :=
  ⟨rfl, rfl, by decide⟩

/-- C5 amended: the sliding windows scored by `evaluate` always have the
fixed length 4 (`range(4)`, `cols-3`, `rows-3` in the source), so the
evaluator agrees with the connect-length-window evaluator exactly on
states whose `connect` is 4 — the default configuration — and not for
other win lengths. -/
theorem claim_C5_amended_window_len (g : ConnectFour) (player : Int)
    (hc : g.connect = 4) :
    evaluate g player = evaluateConnectLen g player := by
  unfold evaluate evaluateConnectLen
  rw [hc]

/-- C5 amended witness: agreement at `connect = 4` on a concrete state. -/
theorem claim_C5_amended_witness :
    (ConnectFour.mk 1 5 4 [[1, 1, 1, 1, 0]] 1 none).connect = 4 ∧
    evaluate ⟨1, 5, 4, [[1, 1, 1, 1, 0]], 1, none⟩ 1 =
      evaluateConnectLen ⟨1, 5, 4, [[1, 1, 1, 1, 0]], 1, none⟩ 1 :=
  ⟨rfl, claim_C5_amended_window_len ⟨1, 5, 4, [[1, 1, 1, 1, 0]], 1, none⟩ 1 rfl⟩

/-
Value bounds.  The search uses `±10**18` as pseudo-infinities; every leaf
value (terminal value or heuristic score) on a board of `g`'s dimensions
is bounded in magnitude by `leafB g`, which depends only on those
dimensions.  When `leafB g < bigE` — true for any remotely realistic
board — the sentinels behave like genuine infinities.
-/

/-- A bound on every leaf value on boards of `g`'s dimensions:
`WIN_SCORE` plus the largest possible heuristic magnitude (6 per centre
cell plus 100000 per window, with fewer than `4·rows·cols` windows). -/
def leafB (g : ConnectFour) : Int :=
  1000000000 + 6 * (g.rows : Int) + 400000 * ((g.rows : Int) * (g.cols : Int))

theorem list_sum_le {α : Type} (f : α → Int) (K : Int) :
    ∀ l : List α, (∀ x ∈ l, f x ≤ K) → (l.map f).sum ≤ K * (l.length : Int) := by
  intro l
  induction l with
  | nil => intro _; simp
  | cons x xs ih =>
    intro h
    simp only [List.map_cons, List.sum_cons, List.length_cons]
    have h1 := h x (List.mem_cons_self x xs)
    have h2 := ih (fun y hy => h y (List.mem_cons_of_mem x hy))
    push_cast
    linarith

theorem list_sum_ge {α : Type} (f : α → Int) (K : Int) :
    ∀ l : List α, (∀ x ∈ l, -K ≤ f x) → -(K * (l.length : Int)) ≤ (l.map f).sum := by
  intro l
  induction l with
  | nil => intro _; simp
  | cons x xs ih =>
    intro h
    simp only [List.map_cons, List.sum_cons, List.length_cons]
    have h1 := h x (List.mem_cons_self x xs)
    have h2 := ih (fun y hy => h y (List.mem_cons_of_mem x hy))
    push_cast
    linarith

theorem score_window_bound (p : Int) (w : List Int) :
    -100000 ≤ score_window p w ∧ score_window p w ≤ 100000 := by
  simp only [score_window]
  split_ifs <;> norm_num

theorem nested_sum_bound (K : Int) (R C : Nat) (f : Nat → Nat → Int)
    (hf : ∀ r c, -K ≤ f r c ∧ f r c ≤ K) :
    -(K * (R : Int) * (C : Int)) ≤
        ((List.range R).map (fun r => ((List.range C).map (fun c => f r c)).sum)).sum ∧
      ((List.range R).map (fun r => ((List.range C).map (fun c => f r c)).sum)).sum ≤
        K * (R : Int) * (C : Int) := by
  have hin : ∀ r, -(K * (C : Int)) ≤ ((List.range C).map (fun c => f r c)).sum ∧
      ((List.range C).map (fun c => f r c)).sum ≤ K * (C : Int) := by
    intro r
    constructor
    · have := list_sum_ge (fun c => f r c) K (List.range C) (fun c _ => (hf r c).1)
      simpa [List.length_range] using this
    · have := list_sum_le (fun c => f r c) K (List.range C) (fun c _ => (hf r c).2)
      simpa [List.length_range] using this
  constructor
  · have h := list_sum_ge (fun r => ((List.range C).map (fun c => f r c)).sum)
      (K * (C : Int)) (List.range R) (fun r _ => (hin r).1)
    rw [List.length_range] at h
    calc -(K * (R : Int) * (C : Int)) = -(K * (C : Int) * (R : Int)) := by ring
      _ ≤ _ := h
  · have h := list_sum_le (fun r => ((List.range C).map (fun c => f r c)).sum)
      (K * (C : Int)) (List.range R) (fun r _ => (hin r).2)
    rw [List.length_range] at h
    calc ((List.range R).map (fun r => ((List.range C).map (fun c => f r c)).sum)).sum
        ≤ K * (C : Int) * (R : Int) := h
      _ = K * (R : Int) * (C : Int) := by ring

theorem evaluate_bound (g : ConnectFour) (p : Int) :
    -leafB g ≤ evaluate g p ∧ evaluate g p ≤ leafB g := by
  have hr0 : (0 : Int) ≤ (g.rows : Int) := Int.natCast_nonneg _
  have hc0 : (0 : Int) ≤ (g.cols : Int) := Int.natCast_nonneg _
  have hrc : (0 : Int) ≤ (g.rows : Int) * (g.cols : Int) := mul_nonneg hr0 hc0
  have hc3 : ((g.cols - 3 : Nat) : Int) ≤ (g.cols : Int) := by
    exact_mod_cast Nat.sub_le g.cols 3
  have hr3 : ((g.rows - 3 : Nat) : Int) ≤ (g.rows : Int) := by
    exact_mod_cast Nat.sub_le g.rows 3
  have hc3n : (0 : Int) ≤ ((g.cols - 3 : Nat) : Int) := Int.natCast_nonneg _
  have hr3n : (0 : Int) ≤ ((g.rows - 3 : Nat) : Int) := Int.natCast_nonneg _
  have hcen1 := list_sum_ge (fun r =>
      if getCell g.board r (g.cols / 2) = p then (1 : Int)
      else if getCell g.board r (g.cols / 2) = -p then -1 else 0) 1
      (List.range g.rows) (fun r _ => by dsimp only; split_ifs <;> norm_num)
  have hcen2 := list_sum_le (fun r =>
      if getCell g.board r (g.cols / 2) = p then (1 : Int)
      else if getCell g.board r (g.cols / 2) = -p then -1 else 0) 1
      (List.range g.rows) (fun r _ => by dsimp only; split_ifs <;> norm_num)
  rw [List.length_range] at hcen1 hcen2
  obtain ⟨hh1, hh2⟩ := nested_sum_bound 100000 g.rows (g.cols - 3)
    (fun r c => score_window p ((List.range 4).map (fun i => getCell g.board r (c + i))))
    (fun r c => score_window_bound p _)
  obtain ⟨hv1, hv2⟩ := nested_sum_bound 100000 g.cols (g.rows - 3)
    (fun c r => score_window p ((List.range 4).map (fun i => getCell g.board (r + i) c)))
    (fun c r => score_window_bound p _)
  obtain ⟨hd11, hd12⟩ := nested_sum_bound 100000 (g.rows - 3) (g.cols - 3)
    (fun r c => score_window p ((List.range 4).map (fun i => getCell g.board (r + i) (c + i))))
    (fun r c => score_window_bound p _)
  obtain ⟨hd21, hd22⟩ := nested_sum_bound 100000 (g.rows - 3) (g.cols - 3)
    (fun k c => score_window p ((List.range 4).map (fun i => getCell g.board (k + 3 - i) (c + i))))
    (fun k c => score_window_bound p _)
  have hhK : (100000 : Int) * (g.rows : Int) * ((g.cols - 3 : Nat) : Int) ≤
      100000 * (g.rows : Int) * (g.cols : Int) :=
    mul_le_mul_of_nonneg_left hc3 (by positivity)
  have hvK : (100000 : Int) * (g.cols : Int) * ((g.rows - 3 : Nat) : Int) ≤
      100000 * (g.rows : Int) * (g.cols : Int) := by
    calc (100000 : Int) * (g.cols : Int) * ((g.rows - 3 : Nat) : Int)
        ≤ 100000 * (g.cols : Int) * (g.rows : Int) :=
          mul_le_mul_of_nonneg_left hr3 (by positivity)
      _ = 100000 * (g.rows : Int) * (g.cols : Int) := by ring
  have hdK : (100000 : Int) * ((g.rows - 3 : Nat) : Int) * ((g.cols - 3 : Nat) : Int) ≤
      100000 * (g.rows : Int) * (g.cols : Int) := by
    calc (100000 : Int) * ((g.rows - 3 : Nat) : Int) * ((g.cols - 3 : Nat) : Int)
        ≤ 100000 * ((g.rows - 3 : Nat) : Int) * (g.cols : Int) :=
          mul_le_mul_of_nonneg_left hc3 (by positivity)
      _ ≤ 100000 * (g.rows : Int) * (g.cols : Int) :=
          mul_le_mul_of_nonneg_right (mul_le_mul_of_nonneg_left hr3 (by norm_num)) hc0
  by_cases h1 : winner g = p
  · unfold evaluate leafB WIN_SCORE
    rw [if_pos h1]
    constructor <;> linarith only [hr0, hrc]
  by_cases h2 : winner g = -p
  · unfold evaluate leafB WIN_SCORE
    rw [if_neg h1, if_pos h2]
    constructor <;> linarith only [hr0, hrc]
  by_cases h3 : is_full g = true
  · unfold evaluate leafB WIN_SCORE
    rw [if_neg h1, if_neg h2, if_pos h3]
    constructor <;> linarith only [hr0, hrc]
  · unfold evaluate leafB WIN_SCORE
    rw [if_neg h1, if_neg h2, if_neg h3]
    dsimp only
    constructor <;>
      linarith only [hcen1, hcen2, hh1, hh2, hv1, hv2, hd11, hd12, hd21, hd22,
        hhK, hvK, hdK, hr0, hc0, hrc]

theorem leafB_big (g : ConnectFour) : (1000000000 : Int) ≤ leafB g := by
  have hr0 : (0 : Int) ≤ (g.rows : Int) := Int.natCast_nonneg _
  have hc0 : (0 : Int) ≤ (g.cols : Int) := Int.natCast_nonneg _
  have hrc : (0 : Int) ≤ (g.rows : Int) * (g.cols : Int) := mul_nonneg hr0 hc0
  unfold leafB
  linarith

theorem leafB_pos (g : ConnectFour) : 0 < leafB g :=
  lt_of_lt_of_le (by norm_num) (leafB_big g)

theorem terminalValue_bound (g : ConnectFour) (ai : Int) :
    -leafB g ≤ terminalValue g ai ∧ terminalValue g ai ≤ leafB g := by
  have h := leafB_big g
  unfold terminalValue WIN_SCORE
  dsimp only
  split_ifs <;> constructor <;> linarith

theorem childState_fields (g : ConnectFour) (a : Nat) (hW : WFB g)
    (ha : a < g.cols) (h0 : getCell g.board 0 a = 0) :
    (childState g a).rows = g.rows ∧ (childState g a).cols = g.cols ∧
      (childState g a).connect = g.connect ∧
      (childState g a).current_player = -g.current_player := by
  obtain ⟨r, _, _, _, _, hcs⟩ := drop_disc_ok g a hW ha h0
  rw [hcs]
  exact ⟨rfl, rfl, rfl, rfl⟩

theorem leafB_childState (g : ConnectFour) (a : Nat) (hW : WFB g)
    (ha : a < g.cols) (h0 : getCell g.board 0 a = 0) :
    leafB (childState g a) = leafB g := by
  obtain ⟨h1, h2, -, -⟩ := childState_fields g a hW ha h0
  unfold leafB
  rw [h1, h2]

theorem actions_ne_nil (g : ConnectFour) (ht : terminal g = false) :
    actions g ≠ [] := by
  intro h
  have hfull := (actions_nil_iff g).1 h
  obtain ⟨-, hf⟩ := (terminal_false_iff g).1 ht
  rw [hf] at hfull
  cases hfull

/-
Monotonicity of the move loops in their running value, and upper bounds.
-/

theorem searchLoopP_max_ge_init (step : ConnectFour → Int × Nat) :
    ∀ (as : List Nat) (g : ConnectFour) (v : Int),
      v ≤ (searchLoopP (fun val v => decide (v < val)) step g as v).1 := by
  intro as
  induction as with
  | nil => intro g v; exact le_refl v
  | cons a rest ih =>
    intro g v
    simp only [searchLoopP, decide_eq_true_eq]
    by_cases h : v < (step (childState g a)).1
    · rw [if_pos h]
      exact le_trans (le_of_lt h) (ih g _)
    · rw [if_neg h]
      exact ih g v

theorem searchLoopP_min_le_init (step : ConnectFour → Int × Nat) :
    ∀ (as : List Nat) (g : ConnectFour) (v : Int),
      (searchLoopP (fun val v => decide (val < v)) step g as v).1 ≤ v := by
  intro as
  induction as with
  | nil => intro g v; exact le_refl v
  | cons a rest ih =>
    intro g v
    simp only [searchLoopP, decide_eq_true_eq]
    by_cases h : (step (childState g a)).1 < v
    · rw [if_pos h]
      exact le_trans (ih g _) (le_of_lt h)
    · rw [if_neg h]
      exact ih g v

theorem searchLoopP_max_le (step : ConnectFour → Int × Nat) (B : Int) :
    ∀ (as : List Nat) (g : ConnectFour) (v : Int),
      (∀ a ∈ as, (step (childState g a)).1 ≤ B) →
      (searchLoopP (fun val v => decide (v < val)) step g as v).1 ≤ max v B := by
  intro as
  induction as with
  | nil => intro g v _; exact le_max_left v B
  | cons a rest ih =>
    intro g v hb
    simp only [searchLoopP, decide_eq_true_eq]
    have hstepB := hb a (List.mem_cons_self a rest)
    have hrest := fun b hbmem => hb b (List.mem_cons_of_mem a hbmem)
    have h1 : (if v < (step (childState g a)).1 then (step (childState g a)).1 else v) ≤
        max v B := by
      by_cases h : v < (step (childState g a)).1
      · rw [if_pos h]; exact le_trans hstepB (le_max_right v B)
      · rw [if_neg h]; exact le_max_left v B
    exact le_trans (ih g _ hrest) (max_le h1 (le_max_right v B))

theorem searchLoopP_min_ge (step : ConnectFour → Int × Nat) (B : Int) :
    ∀ (as : List Nat) (g : ConnectFour) (v : Int),
      (∀ a ∈ as, -B ≤ (step (childState g a)).1) →
      min v (-B) ≤ (searchLoopP (fun val v => decide (val < v)) step g as v).1 := by
  intro as
  induction as with
  | nil => intro g v _; exact min_le_left v (-B)
  | cons a rest ih =>
    intro g v hb
    simp only [searchLoopP, decide_eq_true_eq]
    have hstepB := hb a (List.mem_cons_self a rest)
    have hrest := fun b hbmem => hb b (List.mem_cons_of_mem a hbmem)
    have h1 : min v (-B) ≤
        (if (step (childState g a)).1 < v then (step (childState g a)).1 else v) := by
      by_cases h : (step (childState g a)).1 < v
      · rw [if_pos h]; exact le_trans (min_le_right v (-B)) hstepB
      · rw [if_neg h]; exact min_le_left v (-B)
    exact le_trans (le_min h1 (min_le_right v (-B))) (ih g _ hrest)

theorem abLoopP_max_ge_init (upd : Int → Int → Int → Int × Int)
    (step : Int → Int → ConnectFour → Int × Nat × Nat) (rp : Bool) :
    ∀ (as : List Nat) (g : ConnectFour) (v alpha beta : Int),
      v ≤ (abLoopP (fun val v => decide (v < val)) upd step rp g as v alpha beta).1 := by
  intro as
  induction as with
  | nil => intro g v alpha beta; exact le_refl v
  | cons a rest ih =>
    intro g v alpha beta
    simp only [abLoopP, decide_eq_true_eq]
    set val := (step alpha beta (childState g a)).1 with hval
    set v2 := if v < val then val else v with hv2
    have hv : v ≤ v2 := by
      rw [hv2]
      by_cases h : v < val
      · rw [if_pos h]; exact le_of_lt h
      · rw [if_neg h]
    by_cases hcut : (upd v2 alpha beta).2 ≤ (upd v2 alpha beta).1
    · rw [if_pos hcut]
      exact hv
    · rw [if_neg hcut]
      exact le_trans hv (ih g v2 _ _)

theorem abLoopP_min_le_init (upd : Int → Int → Int → Int × Int)
    (step : Int → Int → ConnectFour → Int × Nat × Nat) (rp : Bool) :
    ∀ (as : List Nat) (g : ConnectFour) (v alpha beta : Int),
      (abLoopP (fun val v => decide (val < v)) upd step rp g as v alpha beta).1 ≤ v := by
  intro as
  induction as with
  | nil => intro g v alpha beta; exact le_refl v
  | cons a rest ih =>
    intro g v alpha beta
    simp only [abLoopP, decide_eq_true_eq]
    set val := (step alpha beta (childState g a)).1 with hval
    set v2 := if val < v then val else v with hv2
    have hv : v2 ≤ v := by
      rw [hv2]
      by_cases h : val < v
      · rw [if_pos h]; exact le_of_lt h
      · rw [if_neg h]
    by_cases hcut : (upd v2 alpha beta).2 ≤ (upd v2 alpha beta).1
    · rw [if_pos hcut]
      exact hv
    · rw [if_neg hcut]
      exact le_trans (ih g v2 _ _) hv

theorem abLoopP_max_le (upd : Int → Int → Int → Int × Int)
    (step : Int → Int → ConnectFour → Int × Nat × Nat) (rp : Bool) (B : Int) :
    ∀ (as : List Nat) (g : ConnectFour) (v alpha beta : Int),
      (∀ a ∈ as, ∀ x y : Int, (step x y (childState g a)).1 ≤ B) →
      (abLoopP (fun val v => decide (v < val)) upd step rp g as v alpha beta).1 ≤ max v B := by
  intro as
  induction as with
  | nil => intro g v alpha beta _; exact le_max_left v B
  | cons a rest ih =>
    intro g v alpha beta hb
    simp only [abLoopP, decide_eq_true_eq]
    have hstepB := hb a (List.mem_cons_self a rest) alpha beta
    have hrest := fun b hbmem => hb b (List.mem_cons_of_mem a hbmem)
    set val := (step alpha beta (childState g a)).1 with hval
    set v2 := if v < val then val else v with hv2
    have h1 : v2 ≤ max v B := by
      rw [hv2]
      by_cases h : v < val
      · rw [if_pos h]; exact le_trans hstepB (le_max_right v B)
      · rw [if_neg h]; exact le_max_left v B
    by_cases hcut : (upd v2 alpha beta).2 ≤ (upd v2 alpha beta).1
    · rw [if_pos hcut]
      exact h1
    · rw [if_neg hcut]
      exact le_trans (ih g v2 _ _ hrest) (max_le h1 (le_max_right v B))

theorem abLoopP_min_ge (upd : Int → Int → Int → Int × Int)
    (step : Int → Int → ConnectFour → Int × Nat × Nat) (rp : Bool) (B : Int) :
    ∀ (as : List Nat) (g : ConnectFour) (v alpha beta : Int),
      (∀ a ∈ as, ∀ x y : Int, -B ≤ (step x y (childState g a)).1) →
      min v (-B) ≤ (abLoopP (fun val v => decide (val < v)) upd step rp g as v alpha beta).1 := by
  intro as
  induction as with
  | nil => intro g v alpha beta _; exact min_le_left v (-B)
  | cons a rest ih =>
    intro g v alpha beta hb
    simp only [abLoopP, decide_eq_true_eq]
    have hstepB := hb a (List.mem_cons_self a rest) alpha beta
    have hrest := fun b hbmem => hb b (List.mem_cons_of_mem a hbmem)
    set val := (step alpha beta (childState g a)).1 with hval
    set v2 := if val < v then val else v with hv2
    have h1 : min v (-B) ≤ v2 := by
      rw [hv2]
      by_cases h : val < v
      · rw [if_pos h]; exact le_trans (min_le_right v (-B)) hstepB
      · rw [if_neg h]; exact min_le_left v (-B)
    by_cases hcut : (upd v2 alpha beta).2 ≤ (upd v2 alpha beta).1
    · rw [if_pos hcut]
      exact h1
    · rw [if_neg hcut]
      exact le_trans (le_min h1 (min_le_right v (-B))) (ih g v2 _ _ hrest)

theorem mmPNode_bound (ai : Int) (dl : Nat) :
    ∀ (fuel : Nat) (isMax : Bool) (d : Nat) (g : ConnectFour), WFB g → dl ≤ d + fuel →
      leafB g < bigE →
      -leafB g ≤ (mmPNode ai dl fuel isMax d g).1 ∧
        (mmPNode ai dl fuel isMax d g).1 ≤ leafB g := by
  intro fuel
  induction fuel with
  | zero =>
    intro isMax d g hW hfd hB
    have hdl : dl ≤ d := by simpa using hfd
    by_cases ht : terminal g = true
    · simpa [mmPNode, ht] using terminalValue_bound g ai
    · simpa [mmPNode, ht, hdl] using evaluate_bound g ai
  | succ fuel' ih =>
    intro isMax d g hW hfd hB
    by_cases ht : terminal g = true
    · simpa [mmPNode, ht] using terminalValue_bound g ai
    by_cases hdl : dl ≤ d
    · simpa [mmPNode, ht, hdl] using evaluate_bound g ai
    have htf : terminal g = false := by
      cases h : terminal g
      · rfl
      · exact absurd h ht
    have hok : ∀ a ∈ actions g, colOK g a := fun a h => (mem_actions g a).1 h
    have hchild : ∀ pol : Bool, ∀ a ∈ actions g,
        -leafB g ≤ (mmPNode ai dl fuel' pol (d + 1) (childState g a)).1 ∧
          (mmPNode ai dl fuel' pol (d + 1) (childState g a)).1 ≤ leafB g := by
      intro pol a hmem
      obtain ⟨ha, h0⟩ := hok a hmem
      have hWc := WFB_childState g a hW ha h0
      have hlb := leafB_childState g a hW ha h0
      have := ih pol (d + 1) (childState g a) hWc (by omega) (by rw [hlb]; exact hB)
      rwa [hlb] at this
    have hbigE : -bigE < -leafB g := by linarith
    cases hacts : actions g with
    | nil => exact absurd hacts (actions_ne_nil g htf)
    | cons a rest =>
      have hmema : a ∈ actions g := by rw [hacts]; exact List.mem_cons_self a rest
      cases isMax with
      | true =>
        have hgoal : (mmPNode ai dl (fuel' + 1) true d g).1 =
            (searchLoopP (fun val v => decide (v < val))
              (mmPNode ai dl fuel' false (d + 1)) g (actions g) (-bigE)).1 := by
          simp [mmPNode, ht, hdl]
        constructor
        · rw [hgoal, hacts]
          simp only [searchLoopP, decide_eq_true_eq]
          have hv := (hchild false a hmema).1
          have hgt : -bigE < (mmPNode ai dl fuel' false (d + 1) (childState g a)).1 :=
            lt_of_lt_of_le hbigE hv
          rw [if_pos hgt]
          exact le_trans hv (searchLoopP_max_ge_init _ rest g _)
        · rw [hgoal]
          have hub := searchLoopP_max_le (mmPNode ai dl fuel' false (d + 1)) (leafB g)
            (actions g) g (-bigE) (fun b hb => (hchild false b hb).2)
          have hmax : max (-bigE) (leafB g) = leafB g :=
            max_eq_right (by linarith [leafB_pos g])
          rwa [hmax] at hub
      | false =>
        have hgoal : (mmPNode ai dl (fuel' + 1) false d g).1 =
            (searchLoopP (fun val v => decide (val < v))
              (mmPNode ai dl fuel' true (d + 1)) g (actions g) bigE).1 := by
          simp [mmPNode, ht, hdl]
        constructor
        · rw [hgoal]
          have hlow := searchLoopP_min_ge (mmPNode ai dl fuel' true (d + 1)) (leafB g)
            (actions g) g bigE (fun b hb => (hchild true b hb).1)
          have hmin : min bigE (-leafB g) = -leafB g :=
            min_eq_right (by linarith [leafB_pos g])
          rwa [hmin] at hlow
        · rw [hgoal, hacts]
          simp only [searchLoopP, decide_eq_true_eq]
          have hv := (hchild true a hmema).2
          have hlt : (mmPNode ai dl fuel' true (d + 1) (childState g a)).1 < bigE :=
            lt_of_le_of_lt hv hB
          rw [if_pos hlt]
          exact le_trans (searchLoopP_min_le_init _ rest g _) hv

theorem abPNode_bound (ai : Int) (dl : Nat) (td : Option Nat) :
    ∀ (fuel : Nat) (isMax : Bool) (d : Nat) (alpha beta : Int) (g : ConnectFour),
      WFB g → dl ≤ d + fuel → leafB g < bigE →
      -leafB g ≤ (abPNode ai dl td fuel isMax d alpha beta g).1 ∧
        (abPNode ai dl td fuel isMax d alpha beta g).1 ≤ leafB g := by
  intro fuel
  induction fuel with
  | zero =>
    intro isMax d alpha beta g hW hfd hB
    have hdl : dl ≤ d := by simpa using hfd
    by_cases ht : terminal g = true
    · simpa [abPNode, ht] using terminalValue_bound g ai
    · simpa [abPNode, ht, hdl] using evaluate_bound g ai
  | succ fuel' ih =>
    intro isMax d alpha beta g hW hfd hB
    by_cases ht : terminal g = true
    · simpa [abPNode, ht] using terminalValue_bound g ai
    by_cases hdl : dl ≤ d
    · simpa [abPNode, ht, hdl] using evaluate_bound g ai
    have htf : terminal g = false := by
      cases h : terminal g
      · rfl
      · exact absurd h ht
    have hok : ∀ a ∈ actions g, colOK g a := fun a h => (mem_actions g a).1 h
    have hchild : ∀ pol : Bool, ∀ a ∈ actions g, ∀ x y : Int,
        -leafB g ≤ (abPNode ai dl td fuel' pol (d + 1) x y (childState g a)).1 ∧
          (abPNode ai dl td fuel' pol (d + 1) x y (childState g a)).1 ≤ leafB g := by
      intro pol a hmem x y
      obtain ⟨ha, h0⟩ := hok a hmem
      have hWc := WFB_childState g a hW ha h0
      have hlb := leafB_childState g a hW ha h0
      have := ih pol (d + 1) x y (childState g a) hWc (by omega) (by rw [hlb]; exact hB)
      rwa [hlb] at this
    have hbigE : -bigE < -leafB g := by linarith
    cases hacts : actions g with
    | nil => exact absurd hacts (actions_ne_nil g htf)
    | cons a rest =>
      have hmema : a ∈ actions g := by rw [hacts]; exact List.mem_cons_self a rest
      cases isMax with
      | true =>
        have hgoal : (abPNode ai dl td (fuel' + 1) true d alpha beta g).1 =
            (abLoopP (fun val v => decide (v < val))
              (fun v a b => (if a < v then v else a, b))
              (abPNode ai dl td fuel' false (d + 1)) (rpAt td d)
              g (actions g) (-bigE) alpha beta).1 := by
          simp [abPNode, ht, hdl]
        constructor
        · rw [hgoal, hacts]
          simp only [abLoopP, decide_eq_true_eq]
          have hv := (hchild false a hmema alpha beta).1
          have hgt : -bigE < (abPNode ai dl td fuel' false (d + 1) alpha beta
              (childState g a)).1 := lt_of_lt_of_le hbigE hv
          rw [if_pos hgt]
          by_cases hcut : ((if alpha < (abPNode ai dl td fuel' false (d + 1) alpha beta
              (childState g a)).1 then (abPNode ai dl td fuel' false (d + 1) alpha beta
              (childState g a)).1 else alpha, beta) : Int × Int).2 ≤
              (if alpha < (abPNode ai dl td fuel' false (d + 1) alpha beta
              (childState g a)).1 then (abPNode ai dl td fuel' false (d + 1) alpha beta
              (childState g a)).1 else alpha, beta).1
          · rw [if_pos hcut]
            exact hv
          · rw [if_neg hcut]
            exact le_trans hv (abLoopP_max_ge_init _ _ _ rest g _ _ _)
        · rw [hgoal]
          have hub := abLoopP_max_le (fun v a b => (if a < v then v else a, b))
            (abPNode ai dl td fuel' false (d + 1)) (rpAt td d) (leafB g)
            (actions g) g (-bigE) alpha beta
            (fun b hb x y => (hchild false b hb x y).2)
          have hmax : max (-bigE) (leafB g) = leafB g :=
            max_eq_right (by linarith [leafB_pos g])
          rwa [hmax] at hub
      | false =>
        have hgoal : (abPNode ai dl td (fuel' + 1) false d alpha beta g).1 =
            (abLoopP (fun val v => decide (val < v))
              (fun v a b => (a, if v < b then v else b))
              (abPNode ai dl td fuel' true (d + 1)) (rpAt td d)
              g (actions g) bigE alpha beta).1 := by
          simp [abPNode, ht, hdl]
        constructor
        · rw [hgoal]
          have hlow := abLoopP_min_ge (fun v a b => (a, if v < b then v else b))
            (abPNode ai dl td fuel' true (d + 1)) (rpAt td d) (leafB g)
            (actions g) g bigE alpha beta
            (fun b hb x y => (hchild true b hb x y).1)
          have hmin : min bigE (-leafB g) = -leafB g :=
            min_eq_right (by linarith [leafB_pos g])
          rwa [hmin] at hlow
        · rw [hgoal, hacts]
          simp only [abLoopP, decide_eq_true_eq]
          have hv := (hchild true a hmema alpha beta).2
          have hlt : (abPNode ai dl td fuel' true (d + 1) alpha beta
              (childState g a)).1 < bigE := lt_of_le_of_lt hv hB
          rw [if_pos hlt]
          by_cases hcut : ((alpha, if (abPNode ai dl td fuel' true (d + 1) alpha beta
              (childState g a)).1 < beta then (abPNode ai dl td fuel' true (d + 1) alpha beta
              (childState g a)).1 else beta) : Int × Int).2 ≤
              (alpha, if (abPNode ai dl td fuel' true (d + 1) alpha beta
              (childState g a)).1 < beta then (abPNode ai dl td fuel' true (d + 1) alpha beta
              (childState g a)).1 else beta).1
          · rw [if_pos hcut]
            exact hv
          · rw [if_neg hcut]
            exact le_trans (abLoopP_min_le_init _ _ _ rest g _ _ _) hv

/-
Fail-soft agreement between the alpha-beta loops and the plain minimax
loops: at a maximising node searched with window `(alpha0, beta)`, the
alpha-beta value `A` and the minimax value `M` satisfy the classical
fail-soft relations — `A` below the window is an upper bound on `M`,
inside the window it equals `M`, above the window it is a lower bound.
-/

theorem if_max_facts (x y : Int) :
    x ≤ (if x < y then y else x) ∧ y ≤ (if x < y then y else x) ∧
      ((if x < y then y else x) = x ∨ (if x < y then y else x) = y) := by
  split_ifs with h <;> omega

theorem if_min_facts (x y : Int) :
    (if y < x then y else x) ≤ x ∧ (if y < x then y else x) ≤ y ∧
      ((if y < x then y else x) = x ∨ (if y < x then y else x) = y) := by
  split_ifs with h <;> omega

theorem abMaxLoopP_failsoft (stepA : Int → Int → ConnectFour → Int × Nat × Nat)
    (stepM : ConnectFour → Int × Nat) (rp : Bool) (g : ConnectFour)
    (alpha0 beta : Int) (hab0 : alpha0 < beta) (halpha0 : -bigE ≤ alpha0) :
    ∀ (as : List Nat),
      (∀ a ∈ as, ∀ alpha : Int, -bigE ≤ alpha → alpha < beta →
        ((stepA alpha beta (childState g a)).1 ≤ alpha →
            (stepM (childState g a)).1 ≤ (stepA alpha beta (childState g a)).1) ∧
        (alpha < (stepA alpha beta (childState g a)).1 →
            (stepA alpha beta (childState g a)).1 < beta →
            (stepA alpha beta (childState g a)).1 = (stepM (childState g a)).1) ∧
        (beta ≤ (stepA alpha beta (childState g a)).1 →
            (stepA alpha beta (childState g a)).1 ≤ (stepM (childState g a)).1)) →
      ∀ (va vm : Int), -bigE ≤ va → va < beta →
        (va ≤ alpha0 → vm ≤ va) → (alpha0 < va → vm = va) →
        ((abLoopP (fun val v => decide (v < val))
            (fun v a b => (if a < v then v else a, b)) stepA rp g as va
            (if alpha0 < va then va else alpha0) beta).1 ≤ alpha0 →
          (searchLoopP (fun val v => decide (v < val)) stepM g as vm).1 ≤
            (abLoopP (fun val v => decide (v < val))
              (fun v a b => (if a < v then v else a, b)) stepA rp g as va
              (if alpha0 < va then va else alpha0) beta).1) ∧
        (alpha0 < (abLoopP (fun val v => decide (v < val))
            (fun v a b => (if a < v then v else a, b)) stepA rp g as va
            (if alpha0 < va then va else alpha0) beta).1 →
          (abLoopP (fun val v => decide (v < val))
            (fun v a b => (if a < v then v else a, b)) stepA rp g as va
            (if alpha0 < va then va else alpha0) beta).1 < beta →
          (abLoopP (fun val v => decide (v < val))
            (fun v a b => (if a < v then v else a, b)) stepA rp g as va
            (if alpha0 < va then va else alpha0) beta).1 =
            (searchLoopP (fun val v => decide (v < val)) stepM g as vm).1) ∧
        (beta ≤ (abLoopP (fun val v => decide (v < val))
            (fun v a b => (if a < v then v else a, b)) stepA rp g as va
            (if alpha0 < va then va else alpha0) beta).1 →
          (abLoopP (fun val v => decide (v < val))
            (fun v a b => (if a < v then v else a, b)) stepA rp g as va
            (if alpha0 < va then va else alpha0) beta).1 ≤
            (searchLoopP (fun val v => decide (v < val)) stepM g as vm).1) := by
  intro as
  induction as with
  | nil =>
    intro _ va vm hva hvb hΦ1 hΦ2
    simp only [abLoopP, searchLoopP]
    refine ⟨fun h => hΦ1 h, fun h1 h2 => (hΦ2 h1).symm, fun h => ?_⟩
    omega
  | cons a rest ih =>
    intro hstep va vm hva hvb hΦ1 hΦ2
    have hsa := hstep a (List.mem_cons_self a rest)
    have hsr := fun b hb => hstep b (List.mem_cons_of_mem a hb)
    simp only [abLoopP, searchLoopP, decide_eq_true_eq]
    set α := (if alpha0 < va then va else alpha0) with hαdef
    have hαfacts := if_max_facts alpha0 va
    rw [← hαdef] at hαfacts
    obtain ⟨hα1, hα2, hα3⟩ := hαfacts
    have hαE : -bigE ≤ α := by rcases hα3 with h | h <;> omega
    have hαβ : α < beta := by rcases hα3 with h | h <;> omega
    obtain ⟨fs1, fs2, fs3⟩ := hsa α hαE hαβ
    set valA := (stepA α beta (childState g a)).1 with hvalAdef
    set valM := (stepM (childState g a)).1 with hvalMdef
    set va2 := (if va < valA then valA else va) with hva2def
    set vm2 := (if vm < valM then valM else vm) with hvm2def
    have hva2facts := if_max_facts va valA
    rw [← hva2def] at hva2facts
    obtain ⟨hva2a, hva2b, hva2c⟩ := hva2facts
    have hvm2facts := if_max_facts vm valM
    rw [← hvm2def] at hvm2facts
    obtain ⟨hvm2a, hvm2b, hvm2c⟩ := hvm2facts
    set α2 := (if α < va2 then va2 else α) with hα2def
    have hα2facts := if_max_facts α va2
    rw [← hα2def] at hα2facts
    obtain ⟨hα2a, hα2b, hα2c⟩ := hα2facts
    have hα2norm : α2 = (if alpha0 < va2 then va2 else alpha0) := by
      have := if_max_facts alpha0 va2
      rcases this.2.2 with h | h <;> rcases hα2c with h2 | h2 <;>
        rcases hα3 with h3 | h3 <;> omega
    by_cases hcut : beta ≤ α2
    · rw [if_pos hcut]
      have hva2β : beta ≤ va2 := by rcases hα2c with h | h <;> omega
      have hva2valA : va2 = valA := by rcases hva2c with h | h <;> omega
      have hfs3 := fs3 (by omega)
      have hMge : vm2 ≤ (searchLoopP (fun val v => decide (v < val)) stepM g rest vm2).1 :=
        searchLoopP_max_ge_init stepM rest g vm2
      refine ⟨fun h => ?_, fun h1 h2 => ?_, fun _ => ?_⟩
      · omega
      · omega
      · show va2 ≤ (searchLoopP (fun val v => decide (v < val)) stepM g rest vm2).1
        omega
    · rw [if_neg hcut]
      have hva2β : va2 < beta := by rcases hα2c with h | h <;> omega
      have hvalAβ : valA < beta := by
        by_contra hc
        push_neg at hc
        omega
      have hΦnew : (va2 ≤ alpha0 → vm2 ≤ va2) ∧ (alpha0 < va2 → vm2 = va2) := by
        by_cases hz : valA ≤ α
        · have hfs1 := fs1 hz
          by_cases hv0 : alpha0 < va
          · have hvm := hΦ2 hv0
            constructor
            · intro h; omega
            · intro h
              rcases hva2c with h2 | h2 <;> rcases hvm2c with h3 | h3 <;>
                rcases hα3 with h4 | h4 <;> omega
          · have hvm := hΦ1 (by omega)
            constructor
            · intro h
              rcases hva2c with h2 | h2 <;> rcases hvm2c with h3 | h3 <;>
                rcases hα3 with h4 | h4 <;> omega
            · intro h
              rcases hva2c with h2 | h2 <;> rcases hvm2c with h3 | h3 <;>
                rcases hα3 with h4 | h4 <;> omega
        · push_neg at hz
          have hfs2 := fs2 hz hvalAβ
          by_cases hv0 : alpha0 < va
          · have hvm := hΦ2 hv0
            constructor
            · intro h
              rcases hva2c with h2 | h2 <;> rcases hvm2c with h3 | h3 <;>
                rcases hα3 with h4 | h4 <;> omega
            · intro h
              rcases hva2c with h2 | h2 <;> rcases hvm2c with h3 | h3 <;>
                rcases hα3 with h4 | h4 <;> omega
          · have hvm := hΦ1 (by omega)
            constructor
            · intro h
              rcases hva2c with h2 | h2 <;> rcases hvm2c with h3 | h3 <;>
                rcases hα3 with h4 | h4 <;> omega
            · intro h
              rcases hva2c with h2 | h2 <;> rcases hvm2c with h3 | h3 <;>
                rcases hα3 with h4 | h4 <;> omega
      have hrec := ih hsr va2 vm2 (by omega) hva2β hΦnew.1 hΦnew.2
      rw [← hα2norm] at hrec
      exact hrec

theorem abMinLoopP_failsoft (stepA : Int → Int → ConnectFour → Int × Nat × Nat)
    (stepM : ConnectFour → Int × Nat) (rp : Bool) (g : ConnectFour)
    (alpha beta0 : Int) (hab0 : alpha < beta0) (hbeta0 : beta0 ≤ bigE) :
    ∀ (as : List Nat),
      (∀ a ∈ as, ∀ beta : Int, beta ≤ bigE → alpha < beta →
        ((stepA alpha beta (childState g a)).1 ≤ alpha →
            (stepM (childState g a)).1 ≤ (stepA alpha beta (childState g a)).1) ∧
        (alpha < (stepA alpha beta (childState g a)).1 →
            (stepA alpha beta (childState g a)).1 < beta →
            (stepA alpha beta (childState g a)).1 = (stepM (childState g a)).1) ∧
        (beta ≤ (stepA alpha beta (childState g a)).1 →
            (stepA alpha beta (childState g a)).1 ≤ (stepM (childState g a)).1)) →
      ∀ (va vm : Int), va ≤ bigE → alpha < va →
        (beta0 ≤ va → va ≤ vm) → (va < beta0 → vm = va) →
        ((abLoopP (fun val v => decide (val < v))
            (fun v a b => (a, if v < b then v else b)) stepA rp g as va
            alpha (if va < beta0 then va else beta0)).1 ≤ alpha →
          (searchLoopP (fun val v => decide (val < v)) stepM g as vm).1 ≤
            (abLoopP (fun val v => decide (val < v))
              (fun v a b => (a, if v < b then v else b)) stepA rp g as va
              alpha (if va < beta0 then va else beta0)).1) ∧
        (alpha < (abLoopP (fun val v => decide (val < v))
            (fun v a b => (a, if v < b then v else b)) stepA rp g as va
            alpha (if va < beta0 then va else beta0)).1 →
          (abLoopP (fun val v => decide (val < v))
            (fun v a b => (a, if v < b then v else b)) stepA rp g as va
            alpha (if va < beta0 then va else beta0)).1 < beta0 →
          (abLoopP (fun val v => decide (val < v))
            (fun v a b => (a, if v < b then v else b)) stepA rp g as va
            alpha (if va < beta0 then va else beta0)).1 =
            (searchLoopP (fun val v => decide (val < v)) stepM g as vm).1) ∧
        (beta0 ≤ (abLoopP (fun val v => decide (val < v))
            (fun v a b => (a, if v < b then v else b)) stepA rp g as va
            alpha (if va < beta0 then va else beta0)).1 →
          (abLoopP (fun val v => decide (val < v))
            (fun v a b => (a, if v < b then v else b)) stepA rp g as va
            alpha (if va < beta0 then va else beta0)).1 ≤
            (searchLoopP (fun val v => decide (val < v)) stepM g as vm).1) := by
  intro as
  induction as with
  | nil =>
    intro _ va vm hva hvb hΦ1 hΦ2
    simp only [abLoopP, searchLoopP]
    refine ⟨fun h => ?_, fun h1 h2 => (hΦ2 h2).symm, fun h => hΦ1 h⟩
    omega
  | cons a rest ih =>
    intro hstep va vm hva hvb hΦ1 hΦ2
    have hsa := hstep a (List.mem_cons_self a rest)
    have hsr := fun b hb => hstep b (List.mem_cons_of_mem a hb)
    simp only [abLoopP, searchLoopP, decide_eq_true_eq]
    set β := (if va < beta0 then va else beta0) with hβdef
    have hβfacts := if_min_facts beta0 va
    rw [← hβdef] at hβfacts
    obtain ⟨hβ1, hβ2, hβ3⟩ := hβfacts
    have hβE : β ≤ bigE := by rcases hβ3 with h | h <;> omega
    have hβα : alpha < β := by rcases hβ3 with h | h <;> omega
    obtain ⟨fs1, fs2, fs3⟩ := hsa β hβE hβα
    set valA := (stepA alpha β (childState g a)).1 with hvalAdef
    set valM := (stepM (childState g a)).1 with hvalMdef
    set va2 := (if valA < va then valA else va) with hva2def
    set vm2 := (if valM < vm then valM else vm) with hvm2def
    have hva2facts := if_min_facts va valA
    rw [← hva2def] at hva2facts
    obtain ⟨hva2a, hva2b, hva2c⟩ := hva2facts
    have hvm2facts := if_min_facts vm valM
    rw [← hvm2def] at hvm2facts
    obtain ⟨hvm2a, hvm2b, hvm2c⟩ := hvm2facts
    set β2 := (if va2 < β then va2 else β) with hβ2def
    have hβ2facts := if_min_facts β va2
    rw [← hβ2def] at hβ2facts
    obtain ⟨hβ2a, hβ2b, hβ2c⟩ := hβ2facts
    have hβ2norm : β2 = (if va2 < beta0 then va2 else beta0) := by
      have := if_min_facts beta0 va2
      rcases this.2.2 with h | h <;> rcases hβ2c with h2 | h2 <;>
        rcases hβ3 with h3 | h3 <;> omega
    by_cases hcut : β2 ≤ alpha
    · rw [if_pos hcut]
      have hva2α : va2 ≤ alpha := by rcases hβ2c with h | h <;> omega
      have hva2valA : va2 = valA := by rcases hva2c with h | h <;> omega
      have hfs1 := fs1 (by omega)
      have hMle : (searchLoopP (fun val v => decide (val < v)) stepM g rest vm2).1 ≤ vm2 :=
        searchLoopP_min_le_init stepM rest g vm2
      refine ⟨fun h => ?_, fun h1 h2 => ?_, fun h => ?_⟩
      · show (searchLoopP (fun val v => decide (val < v)) stepM g rest vm2).1 ≤ va2
        omega
      · omega
      · omega
    · rw [if_neg hcut]
      have hva2β : alpha < va2 := by rcases hβ2c with h | h <;> omega
      have hvalAα : alpha < valA := by
        by_contra hc
        push_neg at hc
        omega
      have hΦnew : (beta0 ≤ va2 → va2 ≤ vm2) ∧ (va2 < beta0 → vm2 = va2) := by
        by_cases hz : β ≤ valA
        · have hfs3 := fs3 hz
          by_cases hv0 : va < beta0
          · have hvm := hΦ2 hv0
            constructor
            · intro h
              rcases hva2c with h2 | h2 <;> rcases hvm2c with h3 | h3 <;>
                rcases hβ3 with h4 | h4 <;> omega
            · intro h
              rcases hva2c with h2 | h2 <;> rcases hvm2c with h3 | h3 <;>
                rcases hβ3 with h4 | h4 <;> omega
          · have hvm := hΦ1 (by omega)
            constructor
            · intro h
              rcases hva2c with h2 | h2 <;> rcases hvm2c with h3 | h3 <;>
                rcases hβ3 with h4 | h4 <;> omega
            · intro h
              rcases hva2c with h2 | h2 <;> rcases hvm2c with h3 | h3 <;>
                rcases hβ3 with h4 | h4 <;> omega
        · push_neg at hz
          have hfs2 := fs2 hvalAα hz
          by_cases hv0 : va < beta0
          · have hvm := hΦ2 hv0
            constructor
            · intro h
              rcases hva2c with h2 | h2 <;> rcases hvm2c with h3 | h3 <;>
                rcases hβ3 with h4 | h4 <;> omega
            · intro h
              rcases hva2c with h2 | h2 <;> rcases hvm2c with h3 | h3 <;>
                rcases hβ3 with h4 | h4 <;> omega
          · have hvm := hΦ1 (by omega)
            constructor
            · intro h
              rcases hva2c with h2 | h2 <;> rcases hvm2c with h3 | h3 <;>
                rcases hβ3 with h4 | h4 <;> omega
            · intro h
              rcases hva2c with h2 | h2 <;> rcases hvm2c with h3 | h3 <;>
                rcases hβ3 with h4 | h4 <;> omega
      have hrec := ih hsr va2 vm2 (by omega) hva2β hΦnew.1 hΦnew.2
      rw [← hβ2norm] at hrec
      exact hrec

theorem abPNode_failsoft (ai : Int) (dl : Nat) (td : Option Nat) :
    ∀ (fuel : Nat) (isMax : Bool) (d : Nat) (alpha beta : Int) (g : ConnectFour),
      WFB g → dl ≤ d + fuel → -bigE ≤ alpha → beta ≤ bigE → alpha < beta →
      ((abPNode ai dl td fuel isMax d alpha beta g).1 ≤ alpha →
        (mmPNode ai dl fuel isMax d g).1 ≤
          (abPNode ai dl td fuel isMax d alpha beta g).1) ∧
      (alpha < (abPNode ai dl td fuel isMax d alpha beta g).1 →
        (abPNode ai dl td fuel isMax d alpha beta g).1 < beta →
        (abPNode ai dl td fuel isMax d alpha beta g).1 =
          (mmPNode ai dl fuel isMax d g).1) ∧
      (beta ≤ (abPNode ai dl td fuel isMax d alpha beta g).1 →
        (abPNode ai dl td fuel isMax d alpha beta g).1 ≤
          (mmPNode ai dl fuel isMax d g).1) := by
  intro fuel
  induction fuel with
  | zero =>
    intro isMax d alpha beta g hW hfd hαE hβE hαβ
    have hdl : dl ≤ d := by simpa using hfd
    have hEq : (abPNode ai dl td 0 isMax d alpha beta g).1 =
        (mmPNode ai dl 0 isMax d g).1 := by
      by_cases ht : terminal g = true
      · simp [abPNode, mmPNode, ht]
      · simp [abPNode, mmPNode, ht, hdl]
    refine ⟨fun h => ?_, fun h1 h2 => ?_, fun h => ?_⟩ <;> omega
  | succ fuel' ih =>
    intro isMax d alpha beta g hW hfd hαE hβE hαβ
    by_cases ht : terminal g = true
    · have hEq : (abPNode ai dl td (fuel' + 1) isMax d alpha beta g).1 =
          (mmPNode ai dl (fuel' + 1) isMax d g).1 := by
        simp [abPNode, mmPNode, ht]
      refine ⟨fun h => ?_, fun h1 h2 => ?_, fun h => ?_⟩ <;> omega
    by_cases hdl : dl ≤ d
    · have hEq : (abPNode ai dl td (fuel' + 1) isMax d alpha beta g).1 =
          (mmPNode ai dl (fuel' + 1) isMax d g).1 := by
        simp [abPNode, mmPNode, ht, hdl]
      refine ⟨fun h => ?_, fun h1 h2 => ?_, fun h => ?_⟩ <;> omega
    have hok : ∀ a ∈ actions g, colOK g a := fun a h => (mem_actions g a).1 h
    cases isMax with
    | true =>
      have hA : (abPNode ai dl td (fuel' + 1) true d alpha beta g).1 =
          (abLoopP (fun val v => decide (v < val))
            (fun v a b => (if a < v then v else a, b))
            (abPNode ai dl td fuel' false (d + 1)) (rpAt td d)
            g (actions g) (-bigE) alpha beta).1 := by
        simp [abPNode, ht, hdl]
      have hM : (mmPNode ai dl (fuel' + 1) true d g).1 =
          (searchLoopP (fun val v => decide (v < val))
            (mmPNode ai dl fuel' false (d + 1)) g (actions g) (-bigE)).1 := by
        simp [mmPNode, ht, hdl]
      have hstep : ∀ a ∈ actions g, ∀ alpha2 : Int, -bigE ≤ alpha2 → alpha2 < beta →
          ((abPNode ai dl td fuel' false (d + 1) alpha2 beta (childState g a)).1 ≤ alpha2 →
            (mmPNode ai dl fuel' false (d + 1) (childState g a)).1 ≤
              (abPNode ai dl td fuel' false (d + 1) alpha2 beta (childState g a)).1) ∧
          (alpha2 < (abPNode ai dl td fuel' false (d + 1) alpha2 beta (childState g a)).1 →
            (abPNode ai dl td fuel' false (d + 1) alpha2 beta (childState g a)).1 < beta →
            (abPNode ai dl td fuel' false (d + 1) alpha2 beta (childState g a)).1 =
              (mmPNode ai dl fuel' false (d + 1) (childState g a)).1) ∧
          (beta ≤ (abPNode ai dl td fuel' false (d + 1) alpha2 beta (childState g a)).1 →
            (abPNode ai dl td fuel' false (d + 1) alpha2 beta (childState g a)).1 ≤
              (mmPNode ai dl fuel' false (d + 1) (childState g a)).1) := by
        intro a hmem alpha2 h1 h2
        obtain ⟨ha, h0⟩ := hok a hmem
        exact ih false (d + 1) alpha2 beta (childState g a)
          (WFB_childState g a hW ha h0) (by omega) h1 hβE h2
      have hloop := abMaxLoopP_failsoft (abPNode ai dl td fuel' false (d + 1))
        (mmPNode ai dl fuel' false (d + 1)) (rpAt td d) g alpha beta hαβ hαE
        (actions g) hstep (-bigE) (-bigE) (le_refl _) (by omega)
        (fun _ => le_refl _) (fun _ => rfl)
      have hinit : (if alpha < -bigE then -bigE else alpha) = alpha :=
        if_neg (not_lt.mpr hαE)
      rw [hinit] at hloop
      rw [hA, hM]
      exact hloop
    | false =>
      have hA : (abPNode ai dl td (fuel' + 1) false d alpha beta g).1 =
          (abLoopP (fun val v => decide (val < v))
            (fun v a b => (a, if v < b then v else b))
            (abPNode ai dl td fuel' true (d + 1)) (rpAt td d)
            g (actions g) bigE alpha beta).1 := by
        simp [abPNode, ht, hdl]
      have hM : (mmPNode ai dl (fuel' + 1) false d g).1 =
          (searchLoopP (fun val v => decide (val < v))
            (mmPNode ai dl fuel' true (d + 1)) g (actions g) bigE).1 := by
        simp [mmPNode, ht, hdl]
      have hstep : ∀ a ∈ actions g, ∀ beta2 : Int, beta2 ≤ bigE → alpha < beta2 →
          ((abPNode ai dl td fuel' true (d + 1) alpha beta2 (childState g a)).1 ≤ alpha →
            (mmPNode ai dl fuel' true (d + 1) (childState g a)).1 ≤
              (abPNode ai dl td fuel' true (d + 1) alpha beta2 (childState g a)).1) ∧
          (alpha < (abPNode ai dl td fuel' true (d + 1) alpha beta2 (childState g a)).1 →
            (abPNode ai dl td fuel' true (d + 1) alpha beta2 (childState g a)).1 < beta2 →
            (abPNode ai dl td fuel' true (d + 1) alpha beta2 (childState g a)).1 =
              (mmPNode ai dl fuel' true (d + 1) (childState g a)).1) ∧
          (beta2 ≤ (abPNode ai dl td fuel' true (d + 1) alpha beta2 (childState g a)).1 →
            (abPNode ai dl td fuel' true (d + 1) alpha beta2 (childState g a)).1 ≤
              (mmPNode ai dl fuel' true (d + 1) (childState g a)).1) := by
        intro a hmem beta2 h1 h2
        obtain ⟨ha, h0⟩ := hok a hmem
        exact ih true (d + 1) alpha beta2 (childState g a)
          (WFB_childState g a hW ha h0) (by omega) hαE h1 h2
      have hloop := abMinLoopP_failsoft (abPNode ai dl td fuel' true (d + 1))
        (mmPNode ai dl fuel' true (d + 1)) (rpAt td d) g alpha beta hαβ hβE
        (actions g) hstep bigE bigE (le_refl _) (by omega)
        (fun _ => le_refl _) (fun h => absurd h (by omega))
      have hinit : (if bigE < beta then bigE else beta) = beta :=
        if_neg (not_lt.mpr hβE)
      rw [hinit] at hloop
      rw [hA, hM]
      exact hloop

/-
Root agreement: with the root window `(-bigE, bigE)` and child values
bounded away from the sentinels, the alpha-beta root loop never cuts off,
updates its best value and best move exactly when the minimax root loop
does, and hence returns the same chosen column and the same root value.
-/

theorem abRootLoopP_agree_max (stepA : Int → Int → ConnectFour → Int × Nat × Nat)
    (stepM : ConnectFour → Int × Nat) (rp : Bool) (g : ConnectFour) (B : Int)
    (hBE : B < bigE) (_hBpos : 0 < B) :
    ∀ (as : List Nat),
      (∀ a ∈ as, ∀ alpha : Int, -bigE ≤ alpha → alpha < bigE →
        ((stepA alpha bigE (childState g a)).1 ≤ alpha →
            (stepM (childState g a)).1 ≤ (stepA alpha bigE (childState g a)).1) ∧
        (alpha < (stepA alpha bigE (childState g a)).1 →
            (stepA alpha bigE (childState g a)).1 < bigE →
            (stepA alpha bigE (childState g a)).1 = (stepM (childState g a)).1) ∧
        (bigE ≤ (stepA alpha bigE (childState g a)).1 →
            (stepA alpha bigE (childState g a)).1 ≤ (stepM (childState g a)).1)) →
      (∀ a ∈ as, ∀ x y : Int, -B ≤ (stepA x y (childState g a)).1 ∧
        (stepA x y (childState g a)).1 ≤ B) →
      ∀ (bv : Int) (bm : Option Nat), -bigE ≤ bv → bv < bigE →
        (abRootLoopP (fun val v => decide (v < val))
            (fun v a b => (if a < v then v else a, b)) stepA rp g as bv bm
            (if -bigE < bv then bv else -bigE) bigE).1 =
          (rootLoopP (fun val v => decide (v < val)) stepM g as bv bm).1 ∧
        (abRootLoopP (fun val v => decide (v < val))
            (fun v a b => (if a < v then v else a, b)) stepA rp g as bv bm
            (if -bigE < bv then bv else -bigE) bigE).2.1 =
          (rootLoopP (fun val v => decide (v < val)) stepM g as bv bm).2.1 := by
  intro as
  induction as with
  | nil => intro _ _ bv bm _ _; exact ⟨rfl, rfl⟩
  | cons a rest ih =>
    intro hstep hstepB bv bm hbvE hbvlt
    have hsa := hstep a (List.mem_cons_self a rest)
    have hsaB := hstepB a (List.mem_cons_self a rest)
    have hsr := fun b hb => hstep b (List.mem_cons_of_mem a hb)
    have hsrB := fun b hb => hstepB b (List.mem_cons_of_mem a hb)
    simp only [abRootLoopP, rootLoopP, decide_eq_true_eq]
    set α := (if -bigE < bv then bv else -bigE) with hαdef
    have hαfacts := if_max_facts (-bigE) bv
    rw [← hαdef] at hαfacts
    obtain ⟨hα1, hα2, hα3⟩ := hαfacts
    have hαE : -bigE ≤ α := hα1
    have hαlt : α < bigE := by rcases hα3 with h | h <;> omega
    obtain ⟨fs1, fs2, fs3⟩ := hsa α hαE hαlt
    obtain ⟨hbdlo, hbdhi⟩ := hsaB α bigE
    set valA := (stepA α bigE (childState g a)).1 with hvalAdef
    set valM := (stepM (childState g a)).1 with hvalMdef
    by_cases hupd : bv < valA
    · have hαval : α < valA := by rcases hα3 with h | h <;> omega
      have hvallt : valA < bigE := by omega
      have hEq := fs2 hαval hvallt
      have hupd2 : bv < valM := by omega
      simp only [if_pos hupd, if_pos hupd2]
      have hα2norm : (if α < valA then valA else α) =
          (if -bigE < valA then valA else -bigE) := by
        rcases hα3 with h | h <;>
          (have h1 := if_max_facts α valA
           have h2 := if_max_facts (-bigE) valA
           rcases h1.2.2 with h3 | h3 <;> rcases h2.2.2 with h4 | h4 <;> omega)
      have hnocut : ¬(bigE ≤ (if α < valA then valA else α)) := by
        have h1 := if_max_facts α valA
        rcases h1.2.2 with h3 | h3 <;> omega
      rw [if_neg hnocut, hα2norm]
      have hrec := ih hsr hsrB valA (some a) (by omega) (by omega)
      rw [hEq] at hrec ⊢
      exact hrec
    · have hvalα : valA ≤ α := by rcases hα3 with h | h <;> omega
      have hMle := fs1 hvalα
      have hupd2 : ¬(bv < valM) := by omega
      simp only [if_neg hupd, if_neg hupd2]
      have hα2norm : (if α < bv then bv else α) = α := by
        rcases hα3 with h | h <;> (split_ifs <;> omega)
      have hnocut : ¬(bigE ≤ (if α < bv then bv else α)) := by
        rw [hα2norm]; omega
      rw [if_neg hnocut, hα2norm, hαdef]
      exact ih hsr hsrB bv bm hbvE hbvlt

theorem abRootLoopP_agree_min (stepA : Int → Int → ConnectFour → Int × Nat × Nat)
    (stepM : ConnectFour → Int × Nat) (rp : Bool) (g : ConnectFour) (B : Int)
    (hBE : B < bigE) :
    ∀ (as : List Nat),
      (∀ a ∈ as, ∀ beta : Int, beta ≤ bigE → -bigE < beta →
        ((stepA (-bigE) beta (childState g a)).1 ≤ -bigE →
            (stepM (childState g a)).1 ≤ (stepA (-bigE) beta (childState g a)).1) ∧
        (-bigE < (stepA (-bigE) beta (childState g a)).1 →
            (stepA (-bigE) beta (childState g a)).1 < beta →
            (stepA (-bigE) beta (childState g a)).1 = (stepM (childState g a)).1) ∧
        (beta ≤ (stepA (-bigE) beta (childState g a)).1 →
            (stepA (-bigE) beta (childState g a)).1 ≤ (stepM (childState g a)).1)) →
      (∀ a ∈ as, ∀ x y : Int, -B ≤ (stepA x y (childState g a)).1 ∧
        (stepA x y (childState g a)).1 ≤ B) →
      ∀ (bv : Int) (bm : Option Nat), bv ≤ bigE → -bigE < bv →
        (abRootLoopP (fun val v => decide (val < v))
            (fun v a b => (a, if v < b then v else b)) stepA rp g as bv bm
            (-bigE) (if bv < bigE then bv else bigE)).1 =
          (rootLoopP (fun val v => decide (val < v)) stepM g as bv bm).1 ∧
        (abRootLoopP (fun val v => decide (val < v))
            (fun v a b => (a, if v < b then v else b)) stepA rp g as bv bm
            (-bigE) (if bv < bigE then bv else bigE)).2.1 =
          (rootLoopP (fun val v => decide (val < v)) stepM g as bv bm).2.1 := by
  intro as
  induction as with
  | nil => intro _ _ bv bm _ _; exact ⟨rfl, rfl⟩
  | cons a rest ih =>
    intro hstep hstepB bv bm hbvE hbvgt
    have hsa := hstep a (List.mem_cons_self a rest)
    have hsaB := hstepB a (List.mem_cons_self a rest)
    have hsr := fun b hb => hstep b (List.mem_cons_of_mem a hb)
    have hsrB := fun b hb => hstepB b (List.mem_cons_of_mem a hb)
    simp only [abRootLoopP, rootLoopP, decide_eq_true_eq]
    set β := (if bv < bigE then bv else bigE) with hβdef
    have hβfacts := if_min_facts bigE bv
    rw [← hβdef] at hβfacts
    obtain ⟨hβ1, hβ2, hβ3⟩ := hβfacts
    have hβE : β ≤ bigE := hβ1
    have hβgt : -bigE < β := by rcases hβ3 with h | h <;> omega
    obtain ⟨fs1, fs2, fs3⟩ := hsa β hβE hβgt
    obtain ⟨hbdlo, hbdhi⟩ := hsaB (-bigE) β
    set valA := (stepA (-bigE) β (childState g a)).1 with hvalAdef
    set valM := (stepM (childState g a)).1 with hvalMdef
    by_cases hupd : valA < bv
    · have hβval : valA < β := by rcases hβ3 with h | h <;> omega
      have hvalgt : -bigE < valA := by omega
      have hEq := fs2 hvalgt hβval
      have hupd2 : valM < bv := by omega
      simp only [if_pos hupd, if_pos hupd2]
      have hβ2norm : (if valA < β then valA else β) =
          (if valA < bigE then valA else bigE) := by
        rcases hβ3 with h | h <;>
          (have h1 := if_min_facts β valA
           have h2 := if_min_facts bigE valA
           rcases h1.2.2 with h3 | h3 <;> rcases h2.2.2 with h4 | h4 <;> omega)
      have hnocut : ¬((if valA < β then valA else β) ≤ -bigE) := by
        have h1 := if_min_facts β valA
        rcases h1.2.2 with h3 | h3 <;> omega
      rw [if_neg hnocut, hβ2norm]
      have hrec := ih hsr hsrB valA (some a) (by omega) (by omega)
      rw [hEq] at hrec ⊢
      exact hrec
    · have hvalβ : β ≤ valA := by rcases hβ3 with h | h <;> omega
      have hMge := fs3 hvalβ
      have hupd2 : ¬(valM < bv) := by omega
      simp only [if_neg hupd, if_neg hupd2]
      have hβ2norm : (if bv < β then bv else β) = β := by
        rcases hβ3 with h | h <;> (split_ifs <;> omega)
      have hnocut : ¬((if bv < β then bv else β) ≤ -bigE) := by
        rw [hβ2norm]; omega
      rw [if_neg hnocut, hβ2norm, hβdef]
      exact ih hsr hsrB bv bm hbvE hbvgt

theorem rootLoopP_keeps_some (better : Int → Int → Bool) (step : ConnectFour → Int × Nat) :
    ∀ (as : List Nat) (g : ConnectFour) (bv : Int) (c : Nat),
      (rootLoopP better step g as bv (some c)).1 ≠ none := by
  intro as
  induction as with
  | nil => intro g bv c; simp [rootLoopP]
  | cons a rest ih =>
    intro g bv c
    simp only [rootLoopP]
    by_cases h : better (step (childState g a)).1 bv = true
    · simp only [if_pos h]
      exact ih g _ a
    · simp only [if_neg h]
      exact ih g _ c

theorem bigE_pos : (0 : Int) < bigE := by unfold bigE; norm_num

/-- C1: on every well-formed state whose leaf values stay below the
`10**18` sentinels (true of any realistic board: `leafB g < bigE` holds
whenever `rows·cols < 2.5·10**12`), `minimax_decision` and
`alphabeta_decision` succeed and return the same chosen column and the
same root value, for every depth limit and tracer depth; moreover when
there is at least one legal move a column is actually chosen.  Both
roots use strict-improvement replacement over the same ascending
legal-move list, so ties break identically — the proof tracks the root
loops in lockstep (the alpha-beta root never cuts off and updates its
best move exactly when the minimax root does), with the classical
fail-soft window relations connecting the subtree values. -/
theorem claim_C1_minimax_alphabeta_agree (g : ConnectFour) (ai : Int) (dl : Nat)
    (td : Option Nat) (hW : WFB g) (hB : leafB g < bigE) :
    ∃ bm bv g1 n1 g2 n2 p2,
      minimax_decision g ai dl = .ok (bm, bv, g1, n1) ∧
      alphabeta_decision g ai dl td = .ok (bm, bv, g2, n2, p2) ∧
      (actions g ≠ [] → ∃ c, bm = some c) := by
  obtain ⟨lm1, h1, -, -⟩ := minimax_decision_bridge g ai dl hW
  obtain ⟨lm2, h2, -, -⟩ := alphabeta_decision_bridge g ai dl td hW
  have hok : ∀ a ∈ actions g, colOK g a := fun a h => (mem_actions g a).1 h
  have hstepB : ∀ pol : Bool, ∀ a ∈ actions g, ∀ x y : Int,
      -leafB g ≤ (abPNode ai dl td dl pol 1 x y (childState g a)).1 ∧
        (abPNode ai dl td dl pol 1 x y (childState g a)).1 ≤ leafB g := by
    intro pol a hmem x y
    obtain ⟨ha, h0⟩ := hok a hmem
    have hlb := leafB_childState g a hW ha h0
    have := abPNode_bound ai dl td dl pol 1 x y (childState g a)
      (WFB_childState g a hW ha h0) (by omega) (by rw [hlb]; exact hB)
    rwa [hlb] at this
  have hmmB : ∀ pol : Bool, ∀ a ∈ actions g,
      -leafB g ≤ (mmPNode ai dl dl pol 1 (childState g a)).1 ∧
        (mmPNode ai dl dl pol 1 (childState g a)).1 ≤ leafB g := by
    intro pol a hmem
    obtain ⟨ha, h0⟩ := hok a hmem
    have hlb := leafB_childState g a hW ha h0
    have := mmPNode_bound ai dl dl pol 1 (childState g a)
      (WFB_childState g a hW ha h0) (by omega) (by rw [hlb]; exact hB)
    rwa [hlb] at this
  have hEE : -bigE < bigE := by have := bigE_pos; omega
  have hs : (abPure g ai dl td).1 = (mmPure g ai dl).1 ∧
      (abPure g ai dl td).2.1 = (mmPure g ai dl).2.1 ∧
      (actions g ≠ [] → ∃ c, (mmPure g ai dl).1 = some c) := by
    unfold mmPure abPure
    by_cases hcp : g.current_player = ai
    · simp only [if_pos hcp]
      have hstep : ∀ a ∈ actions g, ∀ alpha : Int, -bigE ≤ alpha → alpha < bigE →
          ((abPNode ai dl td dl false 1 alpha bigE (childState g a)).1 ≤ alpha →
            (mmPNode ai dl dl false 1 (childState g a)).1 ≤
              (abPNode ai dl td dl false 1 alpha bigE (childState g a)).1) ∧
          (alpha < (abPNode ai dl td dl false 1 alpha bigE (childState g a)).1 →
            (abPNode ai dl td dl false 1 alpha bigE (childState g a)).1 < bigE →
            (abPNode ai dl td dl false 1 alpha bigE (childState g a)).1 =
              (mmPNode ai dl dl false 1 (childState g a)).1) ∧
          (bigE ≤ (abPNode ai dl td dl false 1 alpha bigE (childState g a)).1 →
            (abPNode ai dl td dl false 1 alpha bigE (childState g a)).1 ≤
              (mmPNode ai dl dl false 1 (childState g a)).1) := by
        intro a hmem alpha hα1 hα2
        obtain ⟨ha, h0⟩ := hok a hmem
        exact abPNode_failsoft ai dl td dl false 1 alpha bigE (childState g a)
          (WFB_childState g a hW ha h0) (by omega) hα1 (le_refl _) hα2
      have hagree := abRootLoopP_agree_max
        (fun x y h => abPNode ai dl td dl false 1 x y h)
        (fun h => mmPNode ai dl dl false 1 h) (rpAt td 0) g (leafB g) hB
        (leafB_pos g) (actions g) hstep (fun a hmem x y => hstepB false a hmem x y)
        (-bigE) none (le_refl _) hEE
      have hinit : (if -bigE < -bigE then -bigE else -bigE) = -bigE :=
        if_neg (lt_irrefl _)
      rw [hinit] at hagree
      refine ⟨hagree.1, hagree.2, ?_⟩
      intro hne
      cases hacts : actions g with
      | nil => exact absurd hacts hne
      | cons a rest =>
        have hmema : a ∈ actions g := by rw [hacts]; exact List.mem_cons_self a rest
        have hval := (hmmB false a hmema).1
        have hgt : -bigE < (mmPNode ai dl dl false 1 (childState g a)).1 := by
          have := leafB_pos g; omega
        simp only [rootLoopP, decide_eq_true_eq, if_pos hgt]
        have := rootLoopP_keeps_some (fun val v => decide (v < val))
          (fun h => mmPNode ai dl dl false 1 h) rest g
          (mmPNode ai dl dl false 1 (childState g a)).1 a
        cases hres : (rootLoopP (fun val v => decide (v < val))
            (fun h => mmPNode ai dl dl false 1 h) g rest
            (mmPNode ai dl dl false 1 (childState g a)).1 (some a)).1 with
        | none => exact absurd hres this
        | some c => exact ⟨c, rfl⟩
    · simp only [if_neg hcp]
      have hstep : ∀ a ∈ actions g, ∀ beta : Int, beta ≤ bigE → -bigE < beta →
          ((abPNode ai dl td dl true 1 (-bigE) beta (childState g a)).1 ≤ -bigE →
            (mmPNode ai dl dl true 1 (childState g a)).1 ≤
              (abPNode ai dl td dl true 1 (-bigE) beta (childState g a)).1) ∧
          (-bigE < (abPNode ai dl td dl true 1 (-bigE) beta (childState g a)).1 →
            (abPNode ai dl td dl true 1 (-bigE) beta (childState g a)).1 < beta →
            (abPNode ai dl td dl true 1 (-bigE) beta (childState g a)).1 =
              (mmPNode ai dl dl true 1 (childState g a)).1) ∧
          (beta ≤ (abPNode ai dl td dl true 1 (-bigE) beta (childState g a)).1 →
            (abPNode ai dl td dl true 1 (-bigE) beta (childState g a)).1 ≤
              (mmPNode ai dl dl true 1 (childState g a)).1) := by
        intro a hmem beta hβ1 hβ2
        obtain ⟨ha, h0⟩ := hok a hmem
        exact abPNode_failsoft ai dl td dl true 1 (-bigE) beta (childState g a)
          (WFB_childState g a hW ha h0) (by omega) (le_refl _) hβ1 hβ2
      have hagree := abRootLoopP_agree_min
        (fun x y h => abPNode ai dl td dl true 1 x y h)
        (fun h => mmPNode ai dl dl true 1 h) (rpAt td 0) g (leafB g) hB
        (actions g) hstep (fun a hmem x y => hstepB true a hmem x y)
        bigE none (le_refl _) hEE
      have hinit : (if bigE < bigE then bigE else bigE) = bigE :=
        if_neg (lt_irrefl _)
      rw [hinit] at hagree
      refine ⟨hagree.1, hagree.2, ?_⟩
      intro hne
      cases hacts : actions g with
      | nil => exact absurd hacts hne
      | cons a rest =>
        have hmema : a ∈ actions g := by rw [hacts]; exact List.mem_cons_self a rest
        have hval := (hmmB true a hmema).2
        have hlt : (mmPNode ai dl dl true 1 (childState g a)).1 < bigE := by omega
        simp only [rootLoopP, decide_eq_true_eq, if_pos hlt]
        have := rootLoopP_keeps_some (fun val v => decide (val < v))
          (fun h => mmPNode ai dl dl true 1 h) rest g
          (mmPNode ai dl dl true 1 (childState g a)).1 a
        cases hres : (rootLoopP (fun val v => decide (val < v))
            (fun h => mmPNode ai dl dl true 1 h) g rest
            (mmPNode ai dl dl true 1 (childState g a)).1 (some a)).1 with
        | none => exact absurd hres this
        | some c => exact ⟨c, rfl⟩
  refine ⟨(mmPure g ai dl).1, (mmPure g ai dl).2.1, { g with last_move := lm1 },
    (mmPure g ai dl).2.2, { g with last_move := lm2 }, (abPure g ai dl td).2.2.1,
    (abPure g ai dl td).2.2.2, h1, ?_, hs.2.2⟩
  rw [h2, hs.1, hs.2.1]

/-- C1 witness: agreement instantiated on the empty standard 6×7 board at
depth limit 3 with a tracer of depth 2. -/
theorem claim_C1_witness :
    WFB ⟨6, 7, 4, List.replicate 6 (List.replicate 7 0), 1, none⟩ ∧
    leafB ⟨6, 7, 4, List.replicate 6 (List.replicate 7 0), 1, none⟩ < bigE ∧
    (∃ bm bv g1 n1 g2 n2 p2,
      minimax_decision ⟨6, 7, 4, List.replicate 6 (List.replicate 7 0), 1, none⟩ 1 3 =
        .ok (bm, bv, g1, n1) ∧
      alphabeta_decision ⟨6, 7, 4, List.replicate 6 (List.replicate 7 0), 1, none⟩ 1 3 (some 2) =
        .ok (bm, bv, g2, n2, p2) ∧
      (actions ⟨6, 7, 4, List.replicate 6 (List.replicate 7 0), 1, none⟩ ≠ [] →
        ∃ c, bm = some c)) :=
  ⟨by decide, by decide,
    claim_C1_minimax_alphabeta_agree ⟨6, 7, 4, List.replicate 6 (List.replicate 7 0), 1, none⟩
      1 3 (some 2) (by decide) (by decide)⟩

/-
Node-count comparison: the alpha-beta loops visit a prefix of the moves
the minimax loops visit, each subtree expands no more nodes, and a
recorded PRUNED placeholder certifies that a nonempty suffix of siblings
was skipped, each of which would have cost minimax at least one node.
-/

theorem searchLoopP_nodes (better : Int → Int → Bool) (step : ConnectFour → Int × Nat) :
    ∀ (as : List Nat) (g : ConnectFour) (v : Int),
      (searchLoopP better step g as v).2 =
        (as.map (fun a => (step (childState g a)).2)).sum := by
  intro as
  induction as with
  | nil => intro g v; rfl
  | cons a rest ih =>
    intro g v
    simp only [searchLoopP, List.map_cons, List.sum_cons]
    rw [ih]

theorem rootLoopP_nodes (better : Int → Int → Bool) (step : ConnectFour → Int × Nat) :
    ∀ (as : List Nat) (g : ConnectFour) (bv : Int) (bm : Option Nat),
      (rootLoopP better step g as bv bm).2.2 =
        (as.map (fun a => (step (childState g a)).2)).sum := by
  intro as
  induction as with
  | nil => intro g bv bm; rfl
  | cons a rest ih =>
    intro g bv bm
    simp only [rootLoopP, List.map_cons, List.sum_cons]
    rw [ih]

theorem mmPNode_pos (ai : Int) (dl : Nat) (fuel : Nat) (isMax : Bool) (d : Nat)
    (g : ConnectFour) (hfd : dl ≤ d + fuel) : 1 ≤ (mmPNode ai dl fuel isMax d g).2 := by
  cases fuel with
  | zero =>
    have hdl : dl ≤ d := by simpa using hfd
    by_cases ht : terminal g = true
    · simp [mmPNode, ht]
    · simp [mmPNode, ht, hdl]
  | succ fuel' =>
    by_cases ht : terminal g = true
    · simp [mmPNode, ht]
    by_cases hdl : dl ≤ d
    · simp [mmPNode, ht, hdl]
    · cases isMax <;> (simp [mmPNode, ht, hdl]; try omega)

theorem sum_map_pos (K : ConnectFour → Nat) (hK : ∀ h, 1 ≤ K h) (g : ConnectFour) :
    ∀ (rest : List Nat), rest ≠ [] →
      1 ≤ (rest.map (fun a => K (childState g a))).sum := by
  intro rest
  cases rest with
  | nil => intro h; exact absurd rfl h
  | cons b bs =>
    intro _
    simp only [List.map_cons, List.sum_cons]
    have := hK (childState g b)
    omega

theorem abLoopP_nodes_le (better : Int → Int → Bool) (upd : Int → Int → Int → Int × Int)
    (stepA : Int → Int → ConnectFour → Int × Nat × Nat) (rp : Bool)
    (K : ConnectFour → Nat) (hK : ∀ h, 1 ≤ K h) :
    ∀ (as : List Nat) (g : ConnectFour) (v alpha beta : Int),
      (∀ a ∈ as, ∀ x y : Int,
        (stepA x y (childState g a)).2.1 ≤ K (childState g a) ∧
        (0 < (stepA x y (childState g a)).2.2 →
          (stepA x y (childState g a)).2.1 < K (childState g a))) →
      (abLoopP better upd stepA rp g as v alpha beta).2.1 ≤
        (as.map (fun a => K (childState g a))).sum ∧
      (0 < (abLoopP better upd stepA rp g as v alpha beta).2.2 →
        (abLoopP better upd stepA rp g as v alpha beta).2.1 <
          (as.map (fun a => K (childState g a))).sum) := by
  intro as
  induction as with
  | nil =>
    intro g v alpha beta _
    simp [abLoopP]
  | cons a rest ih =>
    intro g v alpha beta hstep
    obtain ⟨hle, hlt⟩ := hstep a (List.mem_cons_self a rest) alpha beta
    have hrest := fun b hb => hstep b (List.mem_cons_of_mem a hb)
    have hrestpos := sum_map_pos K hK g rest
    simp only [abLoopP, List.map_cons, List.sum_cons]
    set v2 := if better (stepA alpha beta (childState g a)).1 v = true
      then (stepA alpha beta (childState g a)).1 else v with hv2
    by_cases hcut : (upd v2 alpha beta).2 ≤ (upd v2 alpha beta).1
    · rw [if_pos hcut]
      dsimp only
      refine ⟨by omega, ?_⟩
      intro hp
      by_cases hrp : rp = true
      · rw [if_pos hrp] at hp
        by_cases hpz : 0 < (stepA alpha beta (childState g a)).2.2
        · have := hlt hpz
          omega
        · have hrlen : 0 < rest.length := by omega
          have hne : rest ≠ [] := by
            cases rest
            · simp at hrlen
            · exact List.cons_ne_nil _ _
          have := hrestpos hne
          omega
      · rw [if_neg hrp] at hp
        have := hlt (by omega)
        omega
    · rw [if_neg hcut]
      dsimp only
      obtain ⟨ihle, ihlt⟩ := ih g v2 (upd v2 alpha beta).1 (upd v2 alpha beta).2 hrest
      refine ⟨by omega, ?_⟩
      intro hp
      by_cases hpz : 0 < (stepA alpha beta (childState g a)).2.2
      · have := hlt hpz
        omega
      · have := ihlt (by omega)
        omega

theorem abRootLoopP_nodes_le (better : Int → Int → Bool)
    (upd : Int → Int → Int → Int × Int)
    (stepA : Int → Int → ConnectFour → Int × Nat × Nat) (rp : Bool)
    (K : ConnectFour → Nat) (hK : ∀ h, 1 ≤ K h) :
    ∀ (as : List Nat) (g : ConnectFour) (bv : Int) (bm : Option Nat) (alpha beta : Int),
      (∀ a ∈ as, ∀ x y : Int,
        (stepA x y (childState g a)).2.1 ≤ K (childState g a) ∧
        (0 < (stepA x y (childState g a)).2.2 →
          (stepA x y (childState g a)).2.1 < K (childState g a))) →
      (abRootLoopP better upd stepA rp g as bv bm alpha beta).2.2.1 ≤
        (as.map (fun a => K (childState g a))).sum ∧
      (0 < (abRootLoopP better upd stepA rp g as bv bm alpha beta).2.2.2 →
        (abRootLoopP better upd stepA rp g as bv bm alpha beta).2.2.1 <
          (as.map (fun a => K (childState g a))).sum) := by
  intro as
  induction as with
  | nil =>
    intro g bv bm alpha beta _
    simp [abRootLoopP]
  | cons a rest ih =>
    intro g bv bm alpha beta hstep
    obtain ⟨hle, hlt⟩ := hstep a (List.mem_cons_self a rest) alpha beta
    have hrest := fun b hb => hstep b (List.mem_cons_of_mem a hb)
    have hrestpos := sum_map_pos K hK g rest
    simp only [abRootLoopP, List.map_cons, List.sum_cons]
    set bv2 := if better (stepA alpha beta (childState g a)).1 bv = true
      then (stepA alpha beta (childState g a)).1 else bv with hbv2
    set bm2 := if better (stepA alpha beta (childState g a)).1 bv = true
      then some a else bm with hbm2
    by_cases hcut : (upd bv2 alpha beta).2 ≤ (upd bv2 alpha beta).1
    · rw [if_pos hcut]
      dsimp only
      refine ⟨by omega, ?_⟩
      intro hp
      by_cases hrp : rp = true
      · rw [if_pos hrp] at hp
        by_cases hpz : 0 < (stepA alpha beta (childState g a)).2.2
        · have := hlt hpz
          omega
        · have hrlen : 0 < rest.length := by omega
          have hne : rest ≠ [] := by
            cases rest
            · simp at hrlen
            · exact List.cons_ne_nil _ _
          have := hrestpos hne
          omega
      · rw [if_neg hrp] at hp
        have := hlt (by omega)
        omega
    · rw [if_neg hcut]
      dsimp only
      obtain ⟨ihle, ihlt⟩ := ih g bv2 bm2 (upd bv2 alpha beta).1 (upd bv2 alpha beta).2 hrest
      refine ⟨by omega, ?_⟩
      intro hp
      by_cases hpz : 0 < (stepA alpha beta (childState g a)).2.2
      · have := hlt hpz
        omega
      · have := ihlt (by omega)
        omega

theorem abPNode_nodes_le (ai : Int) (dl : Nat) (td : Option Nat) :
    ∀ (fuel : Nat) (isMax : Bool) (d : Nat) (alpha beta : Int) (g : ConnectFour),
      dl ≤ d + fuel →
      (abPNode ai dl td fuel isMax d alpha beta g).2.1 ≤
        (mmPNode ai dl fuel isMax d g).2 ∧
      (0 < (abPNode ai dl td fuel isMax d alpha beta g).2.2 →
        (abPNode ai dl td fuel isMax d alpha beta g).2.1 <
          (mmPNode ai dl fuel isMax d g).2) := by
  intro fuel
  induction fuel with
  | zero =>
    intro isMax d alpha beta g hfd
    have hdl : dl ≤ d := by simpa using hfd
    by_cases ht : terminal g = true
    · simp [abPNode, mmPNode, ht]
    · simp [abPNode, mmPNode, ht, hdl]
  | succ fuel' ih =>
    intro isMax d alpha beta g hfd
    by_cases ht : terminal g = true
    · simp [abPNode, mmPNode, ht]
    by_cases hdl : dl ≤ d
    · simp [abPNode, mmPNode, ht, hdl]
    cases isMax with
    | true =>
      have hab : (abPNode ai dl td (fuel' + 1) true d alpha beta g).2.1 =
          (abLoopP (fun val v => decide (v < val))
            (fun v a b => (if a < v then v else a, b))
            (abPNode ai dl td fuel' false (d + 1)) (rpAt td d)
            g (actions g) (-bigE) alpha beta).2.1 + 1 := by
        simp [abPNode, ht, hdl]
      have habp : (abPNode ai dl td (fuel' + 1) true d alpha beta g).2.2 =
          (abLoopP (fun val v => decide (v < val))
            (fun v a b => (if a < v then v else a, b))
            (abPNode ai dl td fuel' false (d + 1)) (rpAt td d)
            g (actions g) (-bigE) alpha beta).2.2 := by
        simp [abPNode, ht, hdl]
      have hmm : (mmPNode ai dl (fuel' + 1) true d g).2 =
          ((actions g).map (fun a =>
            (mmPNode ai dl fuel' false (d + 1) (childState g a)).2)).sum + 1 := by
        have h1 : (mmPNode ai dl (fuel' + 1) true d g).2 =
            (searchLoopP (fun val v => decide (v < val))
              (mmPNode ai dl fuel' false (d + 1)) g (actions g) (-bigE)).2 + 1 := by
          simp [mmPNode, ht, hdl]
        rw [h1, searchLoopP_nodes]
      obtain ⟨hle, hlt⟩ := abLoopP_nodes_le (fun val v => decide (v < val))
        (fun v a b => (if a < v then v else a, b))
        (abPNode ai dl td fuel' false (d + 1)) (rpAt td d)
        (fun h => (mmPNode ai dl fuel' false (d + 1) h).2)
        (fun h => mmPNode_pos ai dl fuel' false (d + 1) h (by omega))
        (actions g) g (-bigE) alpha beta
        (fun a _ x y => ih false (d + 1) x y (childState g a) (by omega))
      rw [hab, habp, hmm]
      constructor
      · omega
      · intro hp
        have := hlt hp
        omega
    | false =>
      have hab : (abPNode ai dl td (fuel' + 1) false d alpha beta g).2.1 =
          (abLoopP (fun val v => decide (val < v))
            (fun v a b => (a, if v < b then v else b))
            (abPNode ai dl td fuel' true (d + 1)) (rpAt td d)
            g (actions g) bigE alpha beta).2.1 + 1 := by
        simp [abPNode, ht, hdl]
      have habp : (abPNode ai dl td (fuel' + 1) false d alpha beta g).2.2 =
          (abLoopP (fun val v => decide (val < v))
            (fun v a b => (a, if v < b then v else b))
            (abPNode ai dl td fuel' true (d + 1)) (rpAt td d)
            g (actions g) bigE alpha beta).2.2 := by
        simp [abPNode, ht, hdl]
      have hmm : (mmPNode ai dl (fuel' + 1) false d g).2 =
          ((actions g).map (fun a =>
            (mmPNode ai dl fuel' true (d + 1) (childState g a)).2)).sum + 1 := by
        have h1 : (mmPNode ai dl (fuel' + 1) false d g).2 =
            (searchLoopP (fun val v => decide (val < v))
              (mmPNode ai dl fuel' true (d + 1)) g (actions g) bigE).2 + 1 := by
          simp [mmPNode, ht, hdl]
        rw [h1, searchLoopP_nodes]
      obtain ⟨hle, hlt⟩ := abLoopP_nodes_le (fun val v => decide (val < v))
        (fun v a b => (a, if v < b then v else b))
        (abPNode ai dl td fuel' true (d + 1)) (rpAt td d)
        (fun h => (mmPNode ai dl fuel' true (d + 1) h).2)
        (fun h => mmPNode_pos ai dl fuel' true (d + 1) h (by omega))
        (actions g) g bigE alpha beta
        (fun a _ x y => ih true (d + 1) x y (childState g a) (by omega))
      rw [hab, habp, hmm]
      constructor
      · omega
      · intro hp
        have := hlt hp
        omega

/-- C6: for the same state, depth limit and tracer, `alphabeta_decision`
expands at most as many nodes as `minimax_decision`, and strictly fewer
whenever at least one PRUNED placeholder was recorded — a placeholder
certifies a cutoff that skipped a nonempty suffix of sibling moves, each
of which costs plain minimax at least one node expansion. -/
theorem claim_C6_nodes_le (g : ConnectFour) (ai : Int) (dl : Nat) (td : Option Nat)
    (hW : WFB g) :
    ∃ bm1 bv1 g1 n1 bm2 bv2 g2 n2 p2,
      minimax_decision g ai dl = .ok (bm1, bv1, g1, n1) ∧
      alphabeta_decision g ai dl td = .ok (bm2, bv2, g2, n2, p2) ∧
      n2 ≤ n1 ∧ (0 < p2 → n2 < n1) := by
  obtain ⟨lm1, h1, -, -⟩ := minimax_decision_bridge g ai dl hW
  obtain ⟨lm2, h2, -, -⟩ := alphabeta_decision_bridge g ai dl td hW
  refine ⟨(mmPure g ai dl).1, (mmPure g ai dl).2.1, { g with last_move := lm1 },
    (mmPure g ai dl).2.2, (abPure g ai dl td).1, (abPure g ai dl td).2.1,
    { g with last_move := lm2 }, (abPure g ai dl td).2.2.1,
    (abPure g ai dl td).2.2.2, h1, h2, ?_⟩
  unfold mmPure abPure
  by_cases hcp : g.current_player = ai
  · simp only [if_pos hcp]
    obtain ⟨hle, hlt⟩ := abRootLoopP_nodes_le (fun val v => decide (v < val))
      (fun v a b => (if a < v then v else a, b))
      (fun x y h => abPNode ai dl td dl false 1 x y h) (rpAt td 0)
      (fun h => (mmPNode ai dl dl false 1 h).2)
      (fun h => mmPNode_pos ai dl dl false 1 h (by omega))
      (actions g) g (-bigE) none (-bigE) bigE
      (fun a _ x y => abPNode_nodes_le ai dl td dl false 1 x y (childState g a) (by omega))
    rw [rootLoopP_nodes]
    exact ⟨hle, hlt⟩
  · simp only [if_neg hcp]
    obtain ⟨hle, hlt⟩ := abRootLoopP_nodes_le (fun val v => decide (val < v))
      (fun v a b => (a, if v < b then v else b))
      (fun x y h => abPNode ai dl td dl true 1 x y h) (rpAt td 0)
      (fun h => (mmPNode ai dl dl true 1 h).2)
      (fun h => mmPNode_pos ai dl dl true 1 h (by omega))
      (actions g) g bigE none (-bigE) bigE
      (fun a _ x y => abPNode_nodes_le ai dl td dl true 1 x y (childState g a) (by omega))
    rw [rootLoopP_nodes]
    exact ⟨hle, hlt⟩

/-- C6 witness: the node-count comparison instantiated on a concrete
2×2 board at depth 5 with a tracer of depth 2, where pruning occurs. -/
theorem claim_C6_witness :
    WFB ⟨2, 2, 3, [[0, 0], [0, 0]], 1, none⟩ ∧
    (∃ bm1 bv1 g1 n1 bm2 bv2 g2 n2 p2,
      minimax_decision ⟨2, 2, 3, [[0, 0], [0, 0]], 1, none⟩ 1 5 = .ok (bm1, bv1, g1, n1) ∧
      alphabeta_decision ⟨2, 2, 3, [[0, 0], [0, 0]], 1, none⟩ 1 5 (some 2) =
        .ok (bm2, bv2, g2, n2, p2) ∧
      n2 ≤ n1 ∧ (0 < p2 → n2 < n1)) :=
  ⟨by decide, claim_C6_nodes_le ⟨2, 2, 3, [[0, 0], [0, 0]], 1, none⟩ 1 5 (some 2) (by decide)⟩

end C4
